import Mathlib

/-!
The container `xcontainer::unordered_vector`

A shallow embedding of `unordered_vector.hpp` and the properties of its
insert / erase / growth algorithms.

Modelling conventions

* `size_type` is `std::size_t`, taken as 64 bits wide: every `size_type`
  operation of the source is written with an explicit reduction modulo `2^64`.
* A buffer is the list of its slots together with the address of the
  allocation. A slot is an `Option T`: `some v` is a slot known to hold `v`,
  `none` is an indeterminate value (storage that was never written, that is
  outside the allocation, or that has been deallocated).
* `std::move` of a `T` is modelled as a copy; raw allocation always succeeds.
* A C++ reference argument is a `ValueRef`: either an object that lives outside
  the buffer or a slot of a particular allocation. Reading through a reference
  to a slot of an allocation that is no longer the live one yields `none`.
  A reference bound while there is no buffer (`nullptr[i]`) also reads `none`
  here, whereas the source ends the process at that read.
* Iterators are positions, written as their offset from `begin()`.
* The slots of the old buffer that a reallocation reads are listed by the
  functions named `..._reads`, which follow the same branches as the calls.
-/

namespace xcontainer

/-- Modulus of `size_type` arithmetic, `2^64`. -/
def SIZE_MOD : Nat := 18446744073709551616

/-- The sum `a + b` on `size_type`. -/
def size_add (a b : Nat) : Nat := (a + b) % SIZE_MOD

/-- The difference `a - 1` on `size_type` (wraps to `2^64 - 1` at zero). -/
def size_dec (a : Nat) : Nat := (SIZE_MOD + a - 1) % SIZE_MOD

/-- Exceptions thrown by the container. -/
inductive Error where
  | length_error (what : String)
  | out_of_range (what : String)
  deriving DecidableEq, Repr

/-- How a call ends: it returns a value, throws, or never returns. -/
inductive Result (α : Type) where
  | value (a : α)
  | thrown (e : Error)
  | diverged
  deriving DecidableEq, Repr

/-- One allocation: its address and its slots. -/
structure Buffer (T : Type) where
  addr : Nat
  cells : List (Option T)
  deriving DecidableEq, Repr

/-- The data members of `unordered_vector<T>`; `m_data = none` is `nullptr`.
The allocator member is `std::allocator<T>`, which has no state. -/
structure unordered_vector (T : Type) where
  m_data : Option (Buffer T)
  m_size : Nat
  m_capacity : Nat
  deriving DecidableEq, Repr

/-- The final container state of a call together with how the call ended. On
`thrown` the state is the state at the throw. -/
structure Outcome (T α : Type) where
  state : unordered_vector T
  result : Result α
  deriving DecidableEq, Repr

/-- What a `const T&` / `T&&` parameter is bound to. -/
inductive ValueRef (T : Type) where
  | object (v : T)
  | cell (addr : Option Nat) (index : Nat)
  deriving DecidableEq, Repr

section ops

variable {T : Type}

/-- Read `data[i]`. -/
def load (data : Option (Buffer T)) (i : Nat) : Option T :=
  match data with
  | none => none
  | some b => b.cells.getD i none

/-- Write `data[i] = v`; a store outside the allocation is dropped. -/
def store (data : Option (Buffer T)) (i : Nat) (v : Option T) : Option (Buffer T) :=
  match data with
  | none => none
  | some b => some { b with cells := b.cells.set i v }

/-- Address of the live allocation, if any. -/
def data_addr (data : Option (Buffer T)) : Option Nat :=
  match data with
  | none => none
  | some b => some b.addr

/-- The call `m_allocator.allocate(n)`: a block of `n` unwritten slots whose address
differs from that of the block currently held. -/
def allocator_allocate (held : Option (Buffer T)) (n : Nat) : Buffer T :=
  { addr := match held with
            | none => 0
            | some b => b.addr + 1,
    cells := List.replicate n none }

/-- The call `std::copy(src, src + n, dst)`. -/
def std_copy (src : Option (Buffer T)) (n : Nat) (dst : Buffer T) : Buffer T :=
  { dst with cells := (List.range n).foldl (fun cs i => cs.set i (load src i)) dst.cells }

/-- Read through a reference while `data` is the live buffer. -/
def ValueRef.read (r : ValueRef T) (data : Option (Buffer T)) : Option T :=
  match r with
  | .object v => some v
  | .cell a i => if data_addr data = a then load data i else none

/-- Member `operator[]`. -/
def subscript (c : unordered_vector T) (pos : Nat) : Option T :=
  load c.m_data pos

/-- Member `size()`. -/
def size (c : unordered_vector T) : Nat := c.m_size

/-- Member `capacity()`. -/
def capacity (c : unordered_vector T) : Nat := c.m_capacity

/-- Member `back()`. -/
def back (c : unordered_vector T) : Option T :=
  load c.m_data (size_dec c.m_size)

/-- The default constructor. -/
def empty_vector : unordered_vector T :=
  { m_data := none, m_size := 0, m_capacity := 0 }

/-- Member `at(pos)`. The call does not assign any member. -/
def at_ (c : unordered_vector T) (pos : Nat) : Outcome T (Option T) :=
  if pos < c.m_size then
    ⟨c, .value (load c.m_data pos)⟩
  else
    ⟨c, .thrown (.out_of_range ("pos (which is " ++ toString pos
          ++ ") >= this->size() (which is " ++ toString c.m_size ++ ")"))⟩

/-- Member `reserve(new_cap)`. -/
def reserve (c : unordered_vector T) (new_cap : Nat) : Outcome T Unit :=
  if new_cap > c.m_capacity then
    let new_data := allocator_allocate c.m_data new_cap
    let new_data :=
      match c.m_data with
      | some _ => std_copy c.m_data c.m_size new_data
      | none => new_data
    ⟨{ c with m_data := some new_data, m_capacity := new_cap }, .value ()⟩
  else
    ⟨c, .thrown (.length_error "New capacity inferior to current capacity")⟩

/-- The loop `while(power < size) power *= 2;` of `allocate`. -/
def allocate_loop : Nat → Nat → Nat → Option Nat
  | 0, _, _ => none
  | fuel + 1, power, size =>
    if power < size then allocate_loop fuel (power * 2 % SIZE_MOD) size else some power

/-- Member `allocate(size)`. After 64 doublings `power` is `0` and stays `0`, so 65
iterations decide whether the loop ends. -/
def allocate (c : unordered_vector T) (size : Nat) : Outcome T Unit :=
  if size > c.m_capacity then
    match allocate_loop 65 1 size with
    | some power => reserve c power
    | none => ⟨c, .diverged⟩
  else
    ⟨c, .value ()⟩

/-- Member `push_back(value)`. -/
def push_back (c : unordered_vector T) (value : ValueRef T) : Outcome T Unit :=
  let c1 := { c with m_size := size_add c.m_size 1 }
  let r := if c1.m_size > c1.m_capacity then allocate c1 c1.m_size else ⟨c1, .value ()⟩
  match r.result with
  | .value _ =>
    let c2 := r.state
    ⟨{ c2 with m_data := store c2.m_data (size_dec c2.m_size) (value.read c2.m_data) }, .value ()⟩
  | .thrown e => ⟨r.state, .thrown e⟩
  | .diverged => ⟨r.state, .diverged⟩

/-- The call `push_back(v)` for each `v` of `values` in turn, from left to
right, stopping at the first call that does not return. -/
def push_back_all (c : unordered_vector T) : List T → Outcome T Unit
  | [] => ⟨c, .value ()⟩
  | v :: values =>
    match (push_back c (.object v)).result with
    | .value _ => push_back_all (push_back c (.object v)).state values
    | .thrown e => ⟨(push_back c (.object v)).state, .thrown e⟩
    | .diverged => ⟨(push_back c (.object v)).state, .diverged⟩

variable [Inhabited T]

/-- Member `pop_back()`. -/
def pop_back (c : unordered_vector T) : unordered_vector T :=
  { c with m_data := store c.m_data (size_dec c.m_size) (some default),
           m_size := size_dec c.m_size }

/-- Member `insert(pos, value)`, with `pos = begin() + index`. The reference
handed to `push_back` designates the slot `index` of the buffer held at the
call. On a container without a buffer the source binds it to `nullptr[index]`
and reading it ends the process; the model gives that read the value `none`,
so its outcome there is not the one of the source, and the properties that say
the call returns are stated for `index < size` only. -/
def insert (c : unordered_vector T) (index : Nat) (value : T) : Outcome T Nat :=
  let r := push_back c (.cell (data_addr c.m_data) index)
  match r.result with
  | .value _ =>
    let c1 := r.state
    ⟨{ c1 with m_data := store c1.m_data index (some value) }, .value index⟩
  | .thrown e => ⟨r.state, .thrown e⟩
  | .diverged => ⟨r.state, .diverged⟩

/-- Member `erase(pos)`, with `pos = cbegin() + index`; returns the offset of the
returned iterator. -/
def erase (c : unordered_vector T) (index : Nat) : unordered_vector T × Nat :=
  let c1 := { c with m_data := store c.m_data index (back c) }
  (pop_back c1, index)

/-- Write `data[i] = v` for a signed offset `i`. -/
def store_at (data : Option (Buffer T)) (i : Int) (v : Option T) : Option (Buffer T) :=
  if 0 ≤ i then store data i.toNat v else data

/-- The loop of `erase(first, last)`: `itr` starts at `last - 1` and is
decremented until it equals `first - 1`. -/
def erase_range_loop : Nat → unordered_vector T → Int → Int → Int → Outcome T Int
  | 0, c, _, _, _ => ⟨c, .diverged⟩
  | fuel + 1, c, itr, stop, index =>
    if itr ≠ stop then
      let index := itr
      let c1 := { c with m_data := store_at c.m_data index (back c) }
      erase_range_loop fuel (pop_back c1) (itr - 1) stop index
    else
      ⟨c, .value index⟩

/-- Member `erase(first, last)` with `first = cbegin() + first`, `last = cbegin() + last`.
A range with `first <= last` takes `last - first` iterations; the loop of any
other range does not reach its exit test. -/
def erase_range (c : unordered_vector T) (first last : Nat) : Outcome T Int :=
  erase_range_loop (last - first + 1) c ((last : Int) - 1) ((first : Int) - 1) 0

/-- The loop `while(m_size != count) pop_back();` of `resize`. -/
def resize_pop_loop : Nat → unordered_vector T → Nat → Outcome T Unit
  | 0, c, _ => ⟨c, .diverged⟩
  | fuel + 1, c, count =>
    if c.m_size ≠ count then resize_pop_loop fuel (pop_back c) count else ⟨c, .value ()⟩

/-- The loop `while(m_size != count) push_back(value);` of `resize`. -/
def resize_push_loop : Nat → unordered_vector T → Nat → ValueRef T → Outcome T Unit
  | 0, c, _, _ => ⟨c, .diverged⟩
  | fuel + 1, c, count, value =>
    if c.m_size ≠ count then
      match (push_back c value).result with
      | .value _ => resize_push_loop fuel (push_back c value).state count value
      | .thrown e => ⟨(push_back c value).state, .thrown e⟩
      | .diverged => ⟨(push_back c value).state, .diverged⟩
    else
      ⟨c, .value ()⟩

/-- Member `resize(count, value)`. The first loop is entered with `m_size > count`
and takes `m_size - count` iterations, the second with `m_size < count` and
takes `count - m_size` iterations unless a `push_back` does not return. -/
def resize_value (c : unordered_vector T) (count : Nat) (value : ValueRef T) : Outcome T Unit :=
  if c.m_size > count then
    resize_pop_loop (c.m_size - count + 1) c count
  else if c.m_size < count then
    let r := if size_add c.m_size count > c.m_capacity
             then allocate c (size_add c.m_size count) else ⟨c, .value ()⟩
    match r.result with
    | .value _ => resize_push_loop (count - c.m_size + 1) r.state count value
    | .thrown e => ⟨r.state, .thrown e⟩
    | .diverged => ⟨r.state, .diverged⟩
  else
    ⟨c, .value ()⟩

/-- Member `resize(count)`: the pushed value is the temporary `value_type()`. -/
def resize (c : unordered_vector T) (count : Nat) : Outcome T Unit :=
  resize_value c count (.object default)

/-- The values held by a list of slots, when every slot holds one. -/
def values_of : List (Option T) → Option (List T)
  | [] => some []
  | none :: _ => none
  | some v :: rest =>
    match values_of rest with
    | none => none
    | some vs => some (v :: vs)

/-- The call `std::remove_if(data, data + n, pred)` of the standard library, after its
specification: the elements that do not satisfy `pred` are moved to the front
of the range in their relative order, the returned iterator is the end of that
front part, and the slots from there to `data + n` are left with unspecified
values. The call reads every slot of the range, so it is undefined (`none`)
when one of them is indeterminate. -/
def std_remove_if (data : Option (Buffer T)) (n : Nat) (pred : T → Bool) :
    Option (Option (Buffer T) × Nat) :=
  match values_of ((List.range n).map (load data)) with
  | none => none
  | some vals =>
    let kept := vals.filter (fun v => !pred v)
    let front := kept.map some ++ List.replicate (n - kept.length) none
    some (match data with
          | none => none
          | some b => some { b with cells := front ++ b.cells.drop n },
          kept.length)

/-- The free function `std::erase_if(c, pred)`; `none` when `std::remove_if` is undefined. -/
def std_erase_if (c : unordered_vector T) (pred : T → Bool) : Option (Outcome T Nat) :=
  match std_remove_if c.m_data c.m_size pred with
  | none => none
  | some (data, it) =>
    let c1 := { c with m_data := data }
    let r := c1.m_size - it
    let e := erase_range c1 it c1.m_size
    match e.result with
    | .value _ => some ⟨e.state, .value r⟩
    | .thrown x => some ⟨e.state, .thrown x⟩
    | .diverged => some ⟨e.state, .diverged⟩

/-- The free function `std::erase(c, value)`: as `std::erase_if` with `std::remove`, whose test
is `*i == value`. -/
def std_erase [DecidableEq T] (c : unordered_vector T) (value : T) : Option (Outcome T Nat) :=
  match std_remove_if c.m_data c.m_size (fun v => decide (v = value)) with
  | none => none
  | some (data, it) =>
    let c1 := { c with m_data := data }
    let r := c1.m_size - it
    let e := erase_range c1 it c1.m_size
    match e.result with
    | .value _ => some ⟨e.state, .value r⟩
    | .thrown x => some ⟨e.state, .thrown x⟩
    | .diverged => some ⟨e.state, .diverged⟩

/-- The live range `[begin(), end())` as a list of slots. -/
def live (c : unordered_vector T) : List (Option T) :=
  (List.range c.m_size).map (subscript c)

/-- The loop `for(itr = begin(); itr != end(); ++itr) *itr = v;` over a live
range of `n` slots: the slots `0 .. n-1` are assigned in turn. -/
def assign_each (data : Option (Buffer T)) (n : Nat) (v : Option T) : Option (Buffer T) :=
  (List.range n).foldl (fun d i => store d i v) data

/-- The call `std::copy(first, last, begin())` from a range outside the
container that holds `values`: the k-th value is written to slot `k`. -/
def copy_values : Option (Buffer T) → Nat → List T → Option (Buffer T)
  | data, _, [] => data
  | data, k, v :: rest => copy_values (store data k (some v)) (k + 1) rest

/-- The counting loop `for(itr = first; itr != last; ++itr) ++m_size;` of the
range constructor. -/
def count_range (values : List T) : Nat :=
  values.foldl (fun n _ => size_add n 1) 0

/-- Constructor `unordered_vector(count, value)`; the members start from their
default initialisers `nullptr`, `0`, `0`. -/
def construct_fill (count : Nat) (value : T) : Outcome T Unit :=
  let c0 : unordered_vector T := { m_data := none, m_size := count, m_capacity := 0 }
  let r := allocate c0 c0.m_size
  match r.result with
  | .value _ =>
    let c1 := r.state
    ⟨{ c1 with m_data := assign_each c1.m_data c1.m_size (some value) }, .value ()⟩
  | .thrown e => ⟨r.state, .thrown e⟩
  | .diverged => ⟨r.state, .diverged⟩

/-- Constructor `unordered_vector(count)`: no slot is written. -/
def construct_count (count : Nat) : Outcome T Unit :=
  let c0 : unordered_vector T := { m_data := none, m_size := count, m_capacity := 0 }
  allocate c0 c0.m_size

/-- Constructor `unordered_vector(first, last)` over a range holding `values`. -/
def construct_range (values : List T) : Outcome T Unit :=
  let c0 : unordered_vector T := { m_data := none, m_size := count_range values, m_capacity := 0 }
  let r := allocate c0 c0.m_size
  match r.result with
  | .value _ =>
    let c1 := r.state
    ⟨{ c1 with m_data := copy_values c1.m_data 0 values }, .value ()⟩
  | .thrown e => ⟨r.state, .thrown e⟩
  | .diverged => ⟨r.state, .diverged⟩

/-- Constructor `unordered_vector(std::initializer_list<T>)`. -/
def construct_list (init : List T) : Outcome T Unit :=
  let c0 : unordered_vector T := { m_data := none, m_size := init.length, m_capacity := 0 }
  let r := allocate c0 c0.m_size
  match r.result with
  | .value _ =>
    let c1 := r.state
    ⟨{ c1 with m_data := copy_values c1.m_data 0 init }, .value ()⟩
  | .thrown e => ⟨r.state, .thrown e⟩
  | .diverged => ⟨r.state, .diverged⟩

/-- Copy constructor `unordered_vector(const unordered_vector& other)`. -/
def construct_copy (other : unordered_vector T) : unordered_vector T :=
  { m_size := other.m_size,
    m_capacity := other.m_capacity,
    m_data := some (std_copy other.m_data other.m_size
                      (allocator_allocate other.m_data other.m_capacity)) }

/-- Move constructor `unordered_vector(unordered_vector&& other)`: the new
container and what is left of `other`. -/
def construct_move (other : unordered_vector T) : unordered_vector T × unordered_vector T :=
  ({ m_size := other.m_size, m_capacity := other.m_capacity, m_data := other.m_data },
   { m_data := none, m_size := 0, m_capacity := 0 })

/-- Move assignment `operator=(unordered_vector&& other)`: the target and what
is left of `other`; the members of the target are overwritten without being
read. -/
def move_assign (_target other : unordered_vector T) : unordered_vector T × unordered_vector T :=
  ({ m_size := other.m_size, m_capacity := other.m_capacity, m_data := other.m_data },
   { m_data := none, m_size := 0, m_capacity := 0 })

/-- Member `swap(other)`: the two containers after the call. -/
def swap (c other : unordered_vector T) : unordered_vector T × unordered_vector T :=
  (other, c)

/-- Member `shrink_to_fit()`. -/
def shrink_to_fit (c : unordered_vector T) : unordered_vector T :=
  if c.m_size = 0 then
    { c with m_data := none, m_capacity := 0 }
  else
    let new_data := std_copy c.m_data c.m_size (allocator_allocate c.m_data c.m_size)
    { c with m_data := some new_data, m_capacity := c.m_size }

/-- Member `clear()`. -/
def clear (c : unordered_vector T) : unordered_vector T :=
  { c with m_data := assign_each c.m_data c.m_size (some default), m_size := 0 }

/-- Member `emplace_back(args...)`, with `value` the object built from the
arguments. The body is that of `push_back`; it has no `return` statement. -/
def emplace_back (c : unordered_vector T) (value : T) : Outcome T Unit :=
  push_back c (.object value)

/-- One round of the bulk insert loops: `push_back(std::move(m_data[pos]))`
followed by `m_data[pos] = value_type(value)`. As for `insert`, a round on a
container without a buffer reads through a reference to `nullptr[pos]` in the
source, which ends the process, while the model reads `none`; the properties
that say a loop of rounds returns are stated for positions below the size. -/
def insert_round (c : unordered_vector T) (pos : Nat) (value : T) : Outcome T Unit :=
  let r := push_back c (.cell (data_addr c.m_data) pos)
  match r.result with
  | .value _ =>
    let c1 := r.state
    ⟨{ c1 with m_data := store c1.m_data pos (some value) }, .value ()⟩
  | .thrown e => ⟨r.state, .thrown e⟩
  | .diverged => ⟨r.state, .diverged⟩

/-- The loop `for(size_type i = 0; i < count; ++i)` of `insert(pos, count, value)`,
with `todo = count - i` rounds left. -/
def insert_count_loop (index : Nat) (value : T) :
    Nat → Nat → unordered_vector T → Outcome T Unit
  | 0, _, c => ⟨c, .value ()⟩
  | todo + 1, i, c =>
    let r := insert_round c (size_add index i) value
    match r.result with
    | .value _ => insert_count_loop index value todo (i + 1) r.state
    | .thrown e => ⟨r.state, .thrown e⟩
    | .diverged => ⟨r.state, .diverged⟩

/-- Member `insert(pos, count, value)`, with `pos = begin() + index`. -/
def insert_count (c : unordered_vector T) (index count : Nat) (value : T) : Outcome T Nat :=
  let r := if size_add c.m_size count > c.m_capacity
           then allocate c (size_add c.m_size count) else ⟨c, .value ()⟩
  match r.result with
  | .value _ =>
    let l := insert_count_loop index value count 0 r.state
    match l.result with
    | .value _ => ⟨l.state, .value index⟩
    | .thrown e => ⟨l.state, .thrown e⟩
    | .diverged => ⟨l.state, .diverged⟩
  | .thrown e => ⟨r.state, .thrown e⟩
  | .diverged => ⟨r.state, .diverged⟩

/-- The loop over the inserted values of `insert(pos, first, last)` and
`insert(pos, ilist)`; `i` is the running offset. -/
def insert_values_loop (index : Nat) :
    List T → Nat → unordered_vector T → Outcome T Unit
  | [], _, c => ⟨c, .value ()⟩
  | value :: rest, i, c =>
    let r := insert_round c (size_add index i) value
    match r.result with
    | .value _ => insert_values_loop index rest (i + 1) r.state
    | .thrown e => ⟨r.state, .thrown e⟩
    | .diverged => ⟨r.state, .diverged⟩

/-- Member `insert(pos, first, last)` over a range outside the container that
holds `values`; no capacity is acquired before the loop. -/
def insert_range (c : unordered_vector T) (index : Nat) (values : List T) : Outcome T Nat :=
  let l := insert_values_loop index values 0 c
  match l.result with
  | .value _ => ⟨l.state, .value index⟩
  | .thrown e => ⟨l.state, .thrown e⟩
  | .diverged => ⟨l.state, .diverged⟩

/-- Member `insert(pos, ilist)`. -/
def insert_list (c : unordered_vector T) (index : Nat) (ilist : List T) : Outcome T Nat :=
  let r := if size_add c.m_size ilist.length > c.m_capacity
           then allocate c (size_add c.m_size ilist.length) else ⟨c, .value ()⟩
  match r.result with
  | .value _ =>
    let l := insert_values_loop index ilist 0 r.state
    match l.result with
    | .value _ => ⟨l.state, .value index⟩
    | .thrown e => ⟨l.state, .thrown e⟩
    | .diverged => ⟨l.state, .diverged⟩
  | .thrown e => ⟨r.state, .thrown e⟩
  | .diverged => ⟨r.state, .diverged⟩

/-- Member `assign(count, value)`. The source writes the loop test as
`itr != end`, which names the member function without calling it and is
rejected when the member is instantiated; the model reads it as
`itr != end()`. No statement of the body assigns `m_size`. -/
def assign_count (c : unordered_vector T) (count : Nat) (value : T) : Outcome T Unit :=
  let c1 := clear c
  let r := if count > c1.m_capacity then allocate c1 count else ⟨c1, .value ()⟩
  match r.result with
  | .value _ =>
    let c2 := r.state
    ⟨{ c2 with m_data := assign_each c2.m_data c2.m_size (some value) }, .value ()⟩
  | .thrown e => ⟨r.state, .thrown e⟩
  | .diverged => ⟨r.state, .diverged⟩

/-- Member `assign(first, last)` over a range outside the container that holds
`values`: `clear()`, then `push_back(value_type(*itr))` for each value. -/
def assign_range (c : unordered_vector T) (values : List T) : Outcome T Unit :=
  push_back_all (clear c) values

/-- Member `assign(ilist)`. -/
def assign_list (c : unordered_vector T) (ilist : List T) : Outcome T Unit :=
  let c1 := clear c
  let r := if ilist.length > c1.m_capacity then allocate c1 ilist.length else ⟨c1, .value ()⟩
  match r.result with
  | .value _ => push_back_all r.state ilist
  | .thrown e => ⟨r.state, .thrown e⟩
  | .diverged => ⟨r.state, .diverged⟩

/-- Offsets of the source slots read by `std::copy(src, src + n, dst)`. -/
def std_copy_reads (n : Nat) : List Nat :=
  List.range n

/-- Offsets of the slots of the old buffer read by `reserve(new_cap)`: those of
its `std::copy(begin(), end(), new_data)`, made when the capacity grows and a
buffer is held. -/
def reserve_reads (c : unordered_vector T) (new_cap : Nat) : List Nat :=
  if new_cap > c.m_capacity then
    match c.m_data with
    | some _ => std_copy_reads c.m_size
    | none => []
  else
    []

/-- Offsets of the slots of the old buffer read by `allocate(size)`. -/
def allocate_reads (c : unordered_vector T) (size : Nat) : List Nat :=
  if size > c.m_capacity then
    match allocate_loop 65 1 size with
    | some power => reserve_reads c power
    | none => []
  else
    []

/-- Offsets of the slots of the old buffer read by the reallocation inside
`push_back`, which runs after `++m_size`. -/
def push_back_reads (c : unordered_vector T) : List Nat :=
  let c1 := { c with m_size := size_add c.m_size 1 }
  if c1.m_size > c1.m_capacity then allocate_reads c1 c1.m_size else []

end ops

/-- The container invariant: `size <= capacity`, the buffer has `capacity`
slots (no buffer only at capacity 0), and the capacity is a `size_type`. -/
def well_formed {T : Type} (c : unordered_vector T) : Prop :=
  c.m_size ≤ c.m_capacity ∧
  (match c.m_data with
   | none => 0
   | some b => b.cells.length) = c.m_capacity ∧
  c.m_capacity < SIZE_MOD

instance {T : Type} (c : unordered_vector T) : Decidable (well_formed c) := by
  unfold well_formed; infer_instance

/-- The buffer `reserve(p)` installs when `push_back` has already incremented
`m_size` of `c`: a fresh block of `p` slots, filled by the `std::copy` of
`[begin(), end())` when `c` holds a buffer. -/
def grown_buffer {T : Type} (c : unordered_vector T) (p : Nat) : Buffer T :=
  match c.m_data with
  | some _ => std_copy c.m_data (c.m_size + 1) (allocator_allocate c.m_data p)
  | none => allocator_allocate c.m_data p

/-- The buffer `reserve(p)` installs in `c` when `p` exceeds the capacity: a
fresh block of `p` slots, filled by the `std::copy` of `[begin(), end())` when
`c` holds a buffer. -/
def reserved_buffer {T : Type} (c : unordered_vector T) (p : Nat) : Buffer T :=
  match c.m_data with
  | some _ => std_copy c.m_data c.m_size (allocator_allocate c.m_data p)
  | none => allocator_allocate c.m_data p

/-- Number of slots of the allocation `data` points to; `0` for `nullptr`. -/
def buffer_length {T : Type} (data : Option (Buffer T)) : Nat :=
  match data with
  | none => 0
  | some b => b.cells.length

/-- The capacity `after` is the capacity `before` or a larger power of two. -/
def grown_by_policy (before after : Nat) : Prop :=
  after = before ∨ (before < after ∧ ∃ k, after = 2 ^ k)

/-- The call with outcome `o`, made on the container `c`, leaves the capacity
as it was or raises it to a power of two, and does not throw. -/
def steady {T α : Type} (c : unordered_vector T) (o : Outcome T α) : Prop :=
  grown_by_policy c.m_capacity o.state.m_capacity ∧ ∀ e, o.result ≠ .thrown e

/-- The number `n` is zero or a power of two. -/
def pow2_or_zero (n : Nat) : Prop :=
  n = 0 ∨ ∃ k, n = 2 ^ k

/-- The number `p` is the smallest power of two that is at least `n`. -/
def smallest_pow2_ge (p n : Nat) : Prop :=
  (∃ k, p = 2 ^ k) ∧ n ≤ p ∧ ∀ k, n ≤ 2 ^ k → p ≤ 2 ^ k

/-- The container states reached from a freshly constructed container through
the public operations. With `explicit = false` the calls `reserve` and
`shrink_to_fit` are left out. The state a call leaves counts whether or not the
call returned. -/
inductive Reachable {T : Type} [Inhabited T] (explicit : Bool) : unordered_vector T → Prop where
  | from_default : Reachable explicit empty_vector
  | from_fill (count : Nat) (value : T) : Reachable explicit (construct_fill count value).state
  | from_count (count : Nat) : Reachable explicit (construct_count count).state
  | from_range (values : List T) : Reachable explicit (construct_range values).state
  | from_list (init : List T) : Reachable explicit (construct_list init).state
  | from_copy {c : unordered_vector T} :
      Reachable explicit c → Reachable explicit (construct_copy c)
  | from_move {c : unordered_vector T} :
      Reachable explicit c → Reachable explicit (construct_move c).1
  | moved_from {c : unordered_vector T} :
      Reachable explicit c → Reachable explicit (construct_move c).2
  | after_push_back {c : unordered_vector T} (value : T) :
      Reachable explicit c → Reachable explicit (xcontainer.push_back c (.object value)).state
  | after_emplace_back {c : unordered_vector T} (value : T) :
      Reachable explicit c → Reachable explicit (xcontainer.emplace_back c value).state
  | after_pop_back {c : unordered_vector T} :
      Reachable explicit c → Reachable explicit (xcontainer.pop_back c)
  | after_insert {c : unordered_vector T} (index : Nat) (value : T) :
      Reachable explicit c → Reachable explicit (xcontainer.insert c index value).state
  | after_insert_count {c : unordered_vector T} (index count : Nat) (value : T) :
      Reachable explicit c →
      Reachable explicit (xcontainer.insert_count c index count value).state
  | after_insert_range {c : unordered_vector T} (index : Nat) (values : List T) :
      Reachable explicit c → Reachable explicit (xcontainer.insert_range c index values).state
  | after_insert_list {c : unordered_vector T} (index : Nat) (ilist : List T) :
      Reachable explicit c → Reachable explicit (xcontainer.insert_list c index ilist).state
  | after_erase {c : unordered_vector T} (index : Nat) :
      Reachable explicit c → Reachable explicit (xcontainer.erase c index).1
  | after_erase_range {c : unordered_vector T} (first last : Nat) :
      Reachable explicit c → Reachable explicit (xcontainer.erase_range c first last).state
  | after_clear {c : unordered_vector T} :
      Reachable explicit c → Reachable explicit (xcontainer.clear c)
  | after_resize {c : unordered_vector T} (count : Nat) :
      Reachable explicit c → Reachable explicit (xcontainer.resize c count).state
  | after_resize_value {c : unordered_vector T} (count : Nat) (value : T) :
      Reachable explicit c →
      Reachable explicit (xcontainer.resize_value c count (.object value)).state
  | after_reserve {c : unordered_vector T} (new_cap : Nat) :
      explicit = true → Reachable explicit c →
      Reachable explicit (xcontainer.reserve c new_cap).state
  | after_shrink_to_fit {c : unordered_vector T} :
      explicit = true → Reachable explicit c →
      Reachable explicit (xcontainer.shrink_to_fit c)

end xcontainer

namespace xcontainer

section lemmas

variable {T : Type}

theorem size_dec_pos {n : Nat} (h0 : 0 < n) (h1 : n < SIZE_MOD) : size_dec n = n - 1 := by
  unfold size_dec SIZE_MOD at *
  omega

theorem size_add_one_lt {n : Nat} (h1 : n + 1 < SIZE_MOD) : size_add n 1 = n + 1 := by
  unfold size_add
  exact Nat.mod_eq_of_lt h1

theorem load_store_ne (d : Option (Buffer T)) {i j : Nat} (v : Option T) (h : i ≠ j) :
    load (store d i v) j = load d j := by
  cases d with
  | none => simp [load, store]
  | some b => simp [load, store, List.getD_eq_getElem?_getD, List.getElem?_set, h]

theorem load_store_eq (b : Buffer T) {i : Nat} (v : Option T) (h : i < b.cells.length) :
    load (store (some b) i v) i = v := by
  simp [load, store, List.getD_eq_getElem?_getD, List.getElem?_set, h]

theorem well_formed_data {c : unordered_vector T} (hwf : well_formed c) (hpos : 0 < c.m_capacity) :
    ∃ b, c.m_data = some b ∧ b.cells.length = c.m_capacity := by
  obtain ⟨_, hlen, _⟩ := hwf
  cases hd : c.m_data with
  | none => rw [hd] at hlen; simp at hlen; omega
  | some b => rw [hd] at hlen; exact ⟨b, rfl, hlen⟩

theorem SIZE_MOD_eq : SIZE_MOD = 2 ^ 64 := by
  norm_num [SIZE_MOD]

theorem allocate_loop_pow (size : Nat) (hs : size ≤ 2 ^ 63) :
    ∀ fuel k, k ≤ 63 → 64 ≤ fuel + k → (k = 0 ∨ 2 ^ (k - 1) < size) →
      ∃ p, allocate_loop fuel (2 ^ k) size = some p ∧ smallest_pow2_ge p size ∧ p ≤ 2 ^ 63 := by
  intro fuel
  induction fuel with
  | zero => intro k hk hf; omega
  | succ fuel ih =>
    intro k hk hf hprev
    unfold allocate_loop
    by_cases hlt : 2 ^ k < size
    · have hk63 : k < 63 := by
        by_contra hcon
        have : k = 63 := by omega
        subst this
        omega
      have hmod : 2 ^ k * 2 % SIZE_MOD = 2 ^ (k + 1) := by
        rw [SIZE_MOD_eq, ← pow_succ]
        apply Nat.mod_eq_of_lt
        exact Nat.pow_lt_pow_right (by norm_num) (by omega)
      rw [if_pos hlt, hmod]
      exact ih (k + 1) (by omega) (by omega) (Or.inr (by simpa using hlt))
    · rw [if_neg hlt]
      refine ⟨2 ^ k, rfl, ⟨⟨k, rfl⟩, by omega, ?_⟩, Nat.pow_le_pow_right (by norm_num) hk⟩
      intro j hj
      apply Nat.pow_le_pow_right (by norm_num)
      rcases hprev with h0 | hp
      · omega
      · have hlt2 : 2 ^ (k - 1) < 2 ^ j := lt_of_lt_of_le hp hj
        have := (Nat.pow_lt_pow_iff_right (by norm_num : 1 < 2)).1 hlt2
        omega

theorem allocate_loop_spec (size : Nat) (hs : size ≤ 2 ^ 63) :
    ∃ p, allocate_loop 65 1 size = some p ∧ smallest_pow2_ge p size ∧ p ≤ 2 ^ 63 := by
  have h := allocate_loop_pow size hs 65 0 (by omega) (by omega) (Or.inl rfl)
  simpa using h

theorem foldl_set_length (src : Option (Buffer T)) (n : Nat) (cs : List (Option T)) :
    ((List.range n).foldl (fun cs i => cs.set i (load src i)) cs).length = cs.length := by
  induction n with
  | zero => simp
  | succ n ih => simp [List.range_succ, List.foldl_append, ih]

theorem foldl_set_getD (src : Option (Buffer T)) (n : Nat) (cs : List (Option T)) (j : Nat) :
    ((List.range n).foldl (fun cs i => cs.set i (load src i)) cs).getD j none
      = if j < n ∧ j < cs.length then load src j else cs.getD j none := by
  induction n with
  | zero => simp
  | succ n ih =>
    simp only [List.range_succ, List.foldl_append, List.foldl_cons, List.foldl_nil]
    simp only [List.getD_eq_getElem?_getD, List.getElem?_set, foldl_set_length] at ih ⊢
    by_cases hnj : n = j
    · subst hnj
      by_cases hlen : n < cs.length
      · simp [hlen]
      · simp [hlen]
        rw [List.getElem?_eq_none (by omega)]
        rfl
    · rw [if_neg hnj, ih]
      by_cases h1 : j < n
      · have h2 : j < n + 1 := by omega
        simp [h1, h2]
      · have h2 : ¬ j < n + 1 := by omega
        simp [h1, h2]

theorem grown_buffer_length (c : unordered_vector T) (p : Nat) :
    (grown_buffer c p).cells.length = p := by
  unfold grown_buffer
  cases c.m_data with
  | none => simp [allocator_allocate]
  | some b => simp [std_copy, allocator_allocate, foldl_set_length]

theorem grown_buffer_load (c : unordered_vector T) (p j : Nat) (hj : j < c.m_size)
    (hp : c.m_size < p) :
    load (some (grown_buffer c p)) j = load c.m_data j := by
  unfold grown_buffer
  cases hd : c.m_data with
  | none => simp [load, allocator_allocate]
  | some b =>
    have h := foldl_set_getD (some b) (c.m_size + 1) (List.replicate p none) j
    rw [if_pos ⟨by omega, by simp; omega⟩] at h
    simpa [load, std_copy, allocator_allocate] using h

theorem grown_buffer_addr (c : unordered_vector T) (p : Nat) (b : Buffer T)
    (hb : c.m_data = some b) :
    data_addr (some (grown_buffer c p)) ≠ data_addr c.m_data := by
  unfold grown_buffer
  rw [hb]
  simp [data_addr, std_copy, allocator_allocate]

theorem push_back_spare (c : unordered_vector T) (value : ValueRef T)
    (hlt : c.m_size < c.m_capacity) (hcap : c.m_capacity < SIZE_MOD) :
    push_back c value
      = ⟨{ c with m_size := c.m_size + 1,
                  m_data := store c.m_data c.m_size (value.read c.m_data) }, .value ()⟩ := by
  have h1 : size_add c.m_size 1 = c.m_size + 1 := size_add_one_lt (by omega)
  have h2 : size_dec (c.m_size + 1) = c.m_size := by
    rw [size_dec_pos (by omega) (by omega)]; rfl
  have h3 : ¬ c.m_size + 1 > c.m_capacity := by omega
  simp [push_back, h1, h2, h3]

theorem push_back_grow (c : unordered_vector T) (value : ValueRef T)
    (hfull : c.m_size = c.m_capacity) (hs : c.m_size < 2 ^ 63) :
    ∃ p, smallest_pow2_ge p (c.m_size + 1) ∧ p ≤ 2 ^ 63 ∧
      push_back c value
        = ⟨{ m_size := c.m_size + 1, m_capacity := p,
             m_data := store (some (grown_buffer c p)) c.m_size
                         (value.read (some (grown_buffer c p))) }, .value ()⟩ := by
  have hmod : c.m_size + 1 < SIZE_MOD := by rw [SIZE_MOD_eq]; omega
  have h1 : size_add c.m_size 1 = c.m_size + 1 := size_add_one_lt hmod
  have h2 : size_dec (c.m_size + 1) = c.m_size := by
    rw [size_dec_pos (by omega) hmod]; rfl
  have h3 : c.m_size + 1 > c.m_capacity := by omega
  obtain ⟨p, hloop, hp, hp63⟩ := allocate_loop_spec (c.m_size + 1) (by omega)
  have h4 : p > c.m_capacity := by have := hp.2.1; omega
  refine ⟨p, hp, hp63, ?_⟩
  cases hd : c.m_data with
  | none => simp [push_back, h1, h2, h3, allocate, hloop, reserve, h4, grown_buffer, hd]
  | some b => simp [push_back, h1, h2, h3, allocate, hloop, reserve, h4, grown_buffer, hd]

theorem store_length (d : Option (Buffer T)) (i : Nat) (v : Option T) (b : Buffer T)
    (h : store d i v = some b) : ∃ b0, d = some b0 ∧ b.cells.length = b0.cells.length := by
  cases d with
  | none => simp [store] at h
  | some b0 =>
    simp only [store, Option.some.injEq] at h
    exact ⟨b0, rfl, by rw [← h]; simp⟩

theorem well_formed_store {c : unordered_vector T} (hwf : well_formed c) (i : Nat)
    (v : Option T) : well_formed { c with m_data := store c.m_data i v } := by
  obtain ⟨h1, h2, h3⟩ := hwf
  refine ⟨h1, ?_, h3⟩
  cases hd : c.m_data with
  | none => rw [hd] at h2; simpa [store] using h2
  | some b => rw [hd] at h2; simpa [store] using h2

theorem push_back_object (c : unordered_vector T) (v : T) (hwf : well_formed c)
    (hs : c.m_size < 2 ^ 63) :
    (push_back c (.object v)).result = .value () ∧
    well_formed (push_back c (.object v)).state ∧
    (push_back c (.object v)).state.m_size = c.m_size + 1 ∧
    (∀ j, j < c.m_size →
      subscript (push_back c (.object v)).state j = subscript c j) ∧
    subscript (push_back c (.object v)).state c.m_size = some v := by
  by_cases hlt : c.m_size < c.m_capacity
  · rw [push_back_spare c _ hlt hwf.2.2]
    obtain ⟨b, hb, hlen⟩ := well_formed_data hwf (by omega)
    refine ⟨rfl, ?_, rfl, ?_, ?_⟩
    · have h := well_formed_store (c := { c with m_size := c.m_size + 1 })
        ⟨by show c.m_size + 1 ≤ c.m_capacity; omega, hwf.2.1, hwf.2.2⟩ c.m_size
        ((ValueRef.object v).read c.m_data)
      exact h
    · intro j hj
      simp only [subscript]
      rw [load_store_ne _ _ (by omega)]
    · simp only [subscript, ValueRef.read, hb]
      rw [load_store_eq _ _ (by omega)]
  · have hfull : c.m_size = c.m_capacity := by have := hwf.1; omega
    obtain ⟨p, hp, hp63, heq⟩ := push_back_grow c (.object v) hfull hs
    rw [heq]
    have hlen := grown_buffer_length c p
    have hple := hp.2.1
    refine ⟨rfl, ?_, rfl, ?_, ?_⟩
    · refine ⟨by show c.m_size + 1 ≤ p; omega, ?_, by rw [SIZE_MOD_eq]; show p < 2 ^ 64; omega⟩
      simp [store, hlen]
    · intro j hj
      simp only [subscript]
      rw [load_store_ne _ _ (by omega), grown_buffer_load c p j hj (by omega)]
    · simp only [subscript, ValueRef.read]
      rw [load_store_eq _ _ (by omega)]

theorem live_push_back_object (c : unordered_vector T) (v : T) (hwf : well_formed c)
    (hs : c.m_size < 2 ^ 63) :
    live (push_back c (.object v)).state = live c ++ [some v] := by
  obtain ⟨_, _, hsz, hpre, hlast⟩ := push_back_object c v hwf hs
  unfold live
  rw [hsz, List.range_succ, List.map_append, List.map_singleton, hlast]
  congr 1
  apply List.map_congr_left
  intro j hj
  exact hpre j (List.mem_range.1 hj)

theorem push_back_all_spec (vs : List T) :
    ∀ c : unordered_vector T, well_formed c → c.m_size + vs.length ≤ 2 ^ 63 →
      (push_back_all c vs).result = .value () ∧
      well_formed (push_back_all c vs).state ∧
      (push_back_all c vs).state.m_size = c.m_size + vs.length ∧
      live (push_back_all c vs).state = live c ++ vs.map some := by
  induction vs with
  | nil => intro c hwf _; simp [push_back_all, hwf]
  | cons v vs ih =>
    intro c hwf hlen
    simp only [List.length_cons] at hlen
    obtain ⟨hres, hwf1, hsz, _, _⟩ := push_back_object c v hwf (by omega)
    have hlive := live_push_back_object c v hwf (by omega)
    obtain ⟨h1, h2, h3, h4⟩ := ih (push_back c (.object v)).state hwf1 (by omega)
    simp only [push_back_all, hres]
    refine ⟨h1, h2, ?_, ?_⟩
    · rw [h3, hsz, List.length_cons]; omega
    · rw [h4, hlive]; simp

theorem take_pred_append_last {α : Type} (L : List α) (x : α)
    (hx : L[L.length - 1]? = some x) : L.take (L.length - 1) ++ [x] = L := by
  rw [← List.dropLast_eq_take]
  apply List.dropLast_append_getLast?
  rw [List.getLast?_eq_getElem?]
  exact hx

theorem swap_remove_perm {α : Type} (L : List α) :
    ∀ (i : Nat) (x y : α), L[L.length - 1]? = some x → L[i]? = some y →
      List.Perm ((L.set i x).take (L.length - 1) ++ [y]) L := by
  induction L with
  | nil => intro i x y _ hy; simp at hy
  | cons a t ih =>
    intro i x y hx hy
    cases t with
    | nil =>
      cases i with
      | zero => simp at hy; simp [hy]
      | succ j => simp at hy
    | cons b t =>
      have hx2 : (b :: t)[(b :: t).length - 1]? = some x := by
        simpa using hx
      cases i with
      | zero =>
        have hay : a = y := by simpa using hy
        subst hay
        have hD := take_pred_append_last (b :: t) x hx2
        simp only [List.length_cons, Nat.add_sub_cancel, List.set_cons_zero,
          List.take_succ_cons] at hD ⊢
        have h1 : List.Perm (x :: List.take t.length (b :: t) ++ [a])
            (a :: (List.take t.length (b :: t) ++ [x])) := by
          rw [List.cons_append]
          exact (List.Perm.cons x (List.perm_append_singleton a _)).trans
            ((List.Perm.swap a x _).trans
              (List.Perm.cons a (List.perm_append_singleton x _).symm))
        rw [hD] at h1
        exact h1
      | succ j =>
        have hy2 : (b :: t)[j]? = some y := by simpa using hy
        have h := ih j x y hx2 hy2
        simp only [List.length_cons, Nat.add_sub_cancel, List.set_cons_succ,
          List.take_succ_cons, List.cons_append] at h ⊢
        exact List.Perm.cons a h

theorem live_length (c : unordered_vector T) : (live c).length = c.m_size := by
  simp [live]

theorem live_getElem? (c : unordered_vector T) (k : Nat) :
    (live c)[k]? = if k < c.m_size then some (subscript c k) else none := by
  unfold live
  by_cases hk : k < c.m_size
  · simp [hk, List.getElem?_range hk]
  · rw [if_neg hk, List.getElem?_eq_none]
    simp; omega

theorem erase_spec [Inhabited T] (c : unordered_vector T) (i : Nat)
    (hwf : well_formed c) (hi : i < c.m_size) :
    well_formed (erase c i).1 ∧
    (erase c i).1.m_size = c.m_size - 1 ∧
    (erase c i).1.m_capacity = c.m_capacity ∧
    (i < c.m_size - 1 → subscript (erase c i).1 i = subscript c (c.m_size - 1)) ∧
    (∀ j, j ≠ i → j ≠ c.m_size - 1 → subscript (erase c i).1 j = subscript c j) ∧
    subscript (erase c i).1 (c.m_size - 1) = some default := by
  have hcap : c.m_size < SIZE_MOD := lt_of_le_of_lt hwf.1 hwf.2.2
  have hdec : size_dec c.m_size = c.m_size - 1 := size_dec_pos (by omega) hcap
  obtain ⟨b, hb, hlen⟩ := well_formed_data hwf (by have := hwf.1; omega)
  have hle := hwf.1
  refine ⟨?_, ?_, rfl, ?_, ?_, ?_⟩
  · refine ⟨?_, ?_, hwf.2.2⟩
    · simp only [erase, pop_back, hdec]; omega
    · simp [erase, pop_back, store, hb, hlen]
  · simp [erase, pop_back, hdec]
  · intro hlt
    simp only [erase, pop_back, subscript, back, hdec]
    rw [load_store_ne _ _ (by omega), hb, load_store_eq _ _ (by omega)]
  · intro j hji hjn
    simp only [erase, pop_back, subscript, back, hdec]
    rw [load_store_ne _ _ (by omega), load_store_ne _ _ (by omega)]
  · have hlt : c.m_size - 1 < b.cells.length := by omega
    simp [erase, pop_back, subscript, back, hdec, hb, store, load, hlt]

theorem live_erase [Inhabited T] (c : unordered_vector T) (i : Nat)
    (hwf : well_formed c) (hi : i < c.m_size) :
    live (erase c i).1
      = ((live c).set i (subscript c (c.m_size - 1))).take (c.m_size - 1) := by
  obtain ⟨_, hsz, _, hat, hother, _⟩ := erase_spec c i hwf hi
  apply List.ext_getElem?
  intro k
  rw [live_getElem?, hsz, List.getElem?_take, List.getElem?_set, live_length, live_getElem?]
  by_cases hk : k < c.m_size - 1
  · rw [if_pos hk, if_pos hk]
    by_cases hik : i = k
    · subst hik
      rw [if_pos rfl, if_pos hi, hat hk]
    · rw [if_neg hik, if_pos (by omega), hother k (by omega) (by omega)]
  · rw [if_neg hk, if_neg hk]

theorem live_erase_perm [Inhabited T] (c : unordered_vector T) (i : Nat)
    (hwf : well_formed c) (hi : i < c.m_size) :
    List.Perm (live (erase c i).1 ++ [subscript c i]) (live c) := by
  rw [live_erase c i hwf hi]
  have h := swap_remove_perm (live c) i (subscript c (c.m_size - 1)) (subscript c i)
    (by rw [live_getElem?, live_length, if_pos (by omega)])
    (by rw [live_getElem?, if_pos hi])
  rw [live_length] at h
  exact h

theorem erase_range_loop_spec [Inhabited T] (f : Nat) :
    ∀ (n : Nat) (c : unordered_vector T) (itr idx : Int),
      itr = (f : Int) + (n : Int) - 1 → well_formed c → f + n ≤ c.m_size →
      (erase_range_loop (n + 1) c itr ((f : Int) - 1) idx).result
          = .value (if n = 0 then idx else (f : Int)) ∧
      well_formed (erase_range_loop (n + 1) c itr ((f : Int) - 1) idx).state ∧
      (erase_range_loop (n + 1) c itr ((f : Int) - 1) idx).state.m_size = c.m_size - n ∧
      (erase_range_loop (n + 1) c itr ((f : Int) - 1) idx).state.m_capacity
          = c.m_capacity ∧
      (∀ j, j < f →
        subscript (erase_range_loop (n + 1) c itr ((f : Int) - 1) idx).state j
          = subscript c j) ∧
      List.Perm
        (live (erase_range_loop (n + 1) c itr ((f : Int) - 1) idx).state
          ++ ((live c).drop f).take n)
        (live c) := by
  intro n
  induction n with
  | zero =>
    intro c itr idx hitr hwf _
    have hstop : itr = (f : Int) - 1 := by omega
    subst hstop
    simp [erase_range_loop, hwf]
  | succ n ih =>
    intro c itr idx hitr hwf hle
    have hne : itr ≠ (f : Int) - 1 := by omega
    have hnat : itr = ((f + n : Nat) : Int) := by omega
    have hstep : pop_back { c with m_data := store_at c.m_data itr (back c) }
        = (erase c (f + n)).1 := by
      rw [hnat]
      have h0 : (0 : Int) ≤ ((f + n : Nat) : Int) := Int.ofNat_nonneg _
      simp only [store_at, erase, if_pos h0, Int.toNat_ofNat]
    obtain ⟨hwf1, hsz1, hcap1, _, hother, _⟩ := erase_spec c (f + n) hwf (by omega)
    have hperm1 := live_erase_perm c (f + n) hwf (by omega)
    rw [erase_range_loop, if_pos hne]
    simp only [hstep]
    obtain ⟨h1, h2, h3, h4, h5, h6⟩ :=
      ih (erase c (f + n)).1 (itr - 1) itr (by omega) hwf1 (by omega)
    have hslice : ((live (erase c (f + n)).1).drop f).take n = ((live c).drop f).take n := by
      apply List.ext_getElem?
      intro k
      rw [List.getElem?_take, List.getElem?_take, List.getElem?_drop, List.getElem?_drop,
        live_getElem?, live_getElem?, hsz1]
      by_cases hk : k < n
      · rw [if_pos hk, if_pos hk, if_pos (by omega), if_pos (by omega),
          hother (f + k) (by omega) (by omega)]
      · rw [if_neg hk, if_neg hk]
    have hlast : ((live c).drop f).take (n + 1)
        = ((live c).drop f).take n ++ [subscript c (f + n)] := by
      rw [List.take_succ, List.getElem?_drop, live_getElem?, if_pos (by omega)]
      rfl
    refine ⟨?_, h2, by rw [h3, hsz1]; omega, by rw [h4, hcap1], ?_, ?_⟩
    · rw [h1]
      by_cases hn : n = 0
      · subst hn
        simp only [if_true]
        rw [if_neg (by omega)]
        congr 1
      · rw [if_neg hn, if_neg (by omega)]
    · intro j hj
      rw [h5 j hj, hother j (by omega) (by omega)]
    · rw [hlast, ← List.append_assoc]
      rw [hslice] at h6
      exact (List.Perm.append_right _ h6).trans hperm1

theorem values_of_map_some (vals : List T) : values_of (vals.map some) = some vals := by
  induction vals with
  | nil => rfl
  | cons v vs ih => simp [values_of, ih]

theorem filter_not_length (pred : T → Bool) (vals : List T) :
    (vals.filter (fun v => !pred v)).length = vals.length - vals.countP pred := by
  induction vals with
  | nil => rfl
  | cons v vs ih =>
    have hle : vs.countP pred ≤ vs.length := List.countP_le_length pred
    cases hp : pred v
    · simp [List.filter_cons, List.countP_cons, hp, ih]
      omega
    · simp [List.filter_cons, List.countP_cons, hp, ih]

theorem std_erase_if_spec [Inhabited T] (c : unordered_vector T) (pred : T → Bool)
    (vals : List T) (hwf : well_formed c) (hlive : live c = vals.map some) :
    ∃ c1, std_erase_if c pred = some ⟨c1, .value (vals.countP pred)⟩ ∧
      well_formed c1 ∧
      live c1 = (vals.filter (fun v => !pred v)).map some ∧
      c1.m_size = c.m_size - vals.countP pred ∧
      c1.m_capacity = c.m_capacity := by
  have hN : vals.length = c.m_size := by
    have h := congrArg List.length hlive
    rw [live_length, List.length_map] at h
    exact h.symm
  have hk := filter_not_length pred vals
  have hcnt : vals.countP pred ≤ vals.length := List.countP_le_length pred
  have hrange : (List.range c.m_size).map (load c.m_data) = vals.map some := hlive
  obtain ⟨h1, h2, h3⟩ := hwf
  have hrem0 : ∀ kept, kept = vals.filter (fun v => !pred v) →
      std_remove_if c.m_data c.m_size pred
        = some (match c.m_data with
                | none => none
                | some b => some ⟨b.addr,
                    (kept.map some ++ List.replicate (c.m_size - kept.length) none)
                      ++ b.cells.drop c.m_size⟩,
                kept.length) := by
    intro kept hkept
    subst hkept
    simp only [std_remove_if, hrange, values_of_map_some]
  generalize hkept : vals.filter (fun v => !pred v) = kept at hk ⊢
  have hrem1 := hrem0 kept hkept.symm
  -- the container after std::remove_if
  have hc1 : ∃ c1 : unordered_vector T,
      std_remove_if c.m_data c.m_size pred = some (c1.m_data, kept.length) ∧
      c1.m_size = c.m_size ∧ c1.m_capacity = c.m_capacity ∧ well_formed c1 ∧
      ∀ j (hj : j < kept.length), subscript c1 j = some (kept[j]) := by
    cases hd : c.m_data with
    | none =>
      rw [hd] at h2 hrem1
      have h2n : 0 = c.m_capacity := h2
      refine ⟨c, ?_, rfl, rfl, ⟨h1, by rw [hd]; exact h2, h3⟩, ?_⟩
      · rw [hrem1, hd]
      · intro j hj; omega
    | some b =>
      rw [hd] at h2 hrem1
      have h2s : b.cells.length = c.m_capacity := h2
      refine ⟨⟨some ⟨b.addr, (kept.map some ++ List.replicate (c.m_size - kept.length) none)
          ++ b.cells.drop c.m_size⟩, c.m_size, c.m_capacity⟩, hrem1, rfl, rfl, ⟨h1, ?_, h3⟩, ?_⟩
      · simp only [List.length_append, List.length_map, List.length_replicate, List.length_drop]
        omega
      · intro j hj
        simp only [subscript, load, List.getD_eq_getElem?_getD]
        rw [List.append_assoc, List.getElem?_append_left (by simpa using hj)]
        simp [List.getElem?_eq_getElem hj]
  obtain ⟨c1, hrem, hsz1, hcap1, hwf1, hsub⟩ := hc1
  obtain ⟨g1, g2, g3, g4, g5, _⟩ :=
    erase_range_loop_spec kept.length (c1.m_size - kept.length) c1 ((c1.m_size : Int) - 1) 0
      (by omega) hwf1 (by omega)
  have herase : erase_range { c with m_data := c1.m_data } kept.length c.m_size
      = erase_range_loop (c1.m_size - kept.length + 1) c1
          ((c1.m_size : Int) - 1) ((kept.length : Int) - 1) 0 := by
    have hc : ({ c with m_data := c1.m_data } : unordered_vector T) = c1 := by
      cases c1; simp_all
    rw [hc, erase_range, hsz1]
  refine ⟨_, ?_, g2, ?_, by rw [g3, hsz1]; omega, by rw [g4, hcap1]⟩
  · simp only [std_erase_if, hrem, herase, g1]
    congr 3
    omega
  · apply List.ext_getElem?
    intro j
    rw [live_getElem?, g3, List.getElem?_map]
    by_cases hj : j < kept.length
    · rw [if_pos (by omega), g5 j hj, hsub j hj, List.getElem?_eq_getElem hj]
      rfl
    · rw [if_neg (by omega), List.getElem?_eq_none (by omega)]
      rfl

theorem insert_spare_spec [Inhabited T] (c : unordered_vector T) (i : Nat) (v : T)
    (hwf : well_formed c) (hlt : c.m_size < c.m_capacity) (hi : i ≤ c.m_size) :
    (insert c i v).result = .value i ∧
    (insert c i v).state.m_size = c.m_size + 1 ∧
    (insert c i v).state.m_capacity = c.m_capacity ∧
    subscript (insert c i v).state i = some v ∧
    (i < c.m_size → subscript (insert c i v).state c.m_size = subscript c i) ∧
    (∀ j, j ≠ i → j ≠ c.m_size → subscript (insert c i v).state j = subscript c j) := by
  obtain ⟨b, hb, hlen⟩ := well_formed_data hwf (by omega)
  have hpush := push_back_spare c (.cell (data_addr c.m_data) i) hlt hwf.2.2
  have hread : (ValueRef.cell (data_addr c.m_data) i).read c.m_data = load c.m_data i := by
    simp [ValueRef.read]
  rw [hread] at hpush
  have hstate : insert c i v
      = ⟨{ c with m_size := c.m_size + 1,
                  m_data := store (store c.m_data c.m_size (load c.m_data i)) i (some v) },
          .value i⟩ := by
    simp only [insert, hpush]
  rw [hstate]
  refine ⟨rfl, rfl, rfl, ?_, ?_, ?_⟩
  · have hib : i < b.cells.length := by omega
    simp [subscript, hb, store, load, hib]
  · intro hlt2
    simp only [subscript]
    rw [load_store_ne _ _ (by omega), hb, load_store_eq _ _ (by omega)]
  · intro j hji hjn
    simp only [subscript]
    rw [load_store_ne _ _ (by omega), load_store_ne _ _ (by omega)]

theorem insert_full_spec [Inhabited T] (c : unordered_vector T) (i : Nat) (v : T)
    (hwf : well_formed c) (hfull : c.m_size = c.m_capacity) (hs : c.m_size < 2 ^ 63)
    (hi : i < c.m_size) :
    (insert c i v).result = .value i ∧
    (insert c i v).state.m_size = c.m_size + 1 ∧
    subscript (insert c i v).state i = some v ∧
    subscript (insert c i v).state c.m_size = none := by
  obtain ⟨b, hb, _⟩ := well_formed_data hwf (by omega)
  obtain ⟨p, hp, _, hpush⟩ := push_back_grow c (.cell (data_addr c.m_data) i) hfull hs
  have hlen := grown_buffer_length c p
  have hple := hp.2.1
  have haddr := grown_buffer_addr c p b hb
  have hread : (ValueRef.cell (data_addr c.m_data) i).read (some (grown_buffer c p)) = none := by
    simp only [ValueRef.read]
    rw [if_neg haddr]
  rw [hread] at hpush
  have hstate : insert c i v
      = ⟨{ m_size := c.m_size + 1, m_capacity := p,
           m_data := store (store (some (grown_buffer c p)) c.m_size none) i (some v) },
          .value i⟩ := by
    simp only [insert, hpush]
  rw [hstate]
  refine ⟨rfl, rfl, ?_, ?_⟩
  · have hib : i < (grown_buffer c p).cells.length := by omega
    simp [subscript, store, load, hib]
  · simp only [subscript]
    rw [load_store_ne _ _ (by omega), load_store_eq _ _ (by omega)]

theorem allocate_loop_zero (size : Nat) (hs : 0 < size) :
    ∀ fuel, allocate_loop fuel 0 size = none := by
  intro fuel
  induction fuel with
  | zero => rfl
  | succ fuel ih =>
    unfold allocate_loop
    rw [if_pos hs]
    simpa using ih

theorem allocate_loop_sound (size : Nat) :
    ∀ fuel k p, k ≤ 63 → allocate_loop fuel (2 ^ k) size = some p →
      (∃ j, p = 2 ^ j) ∧ size ≤ p ∧ p ≤ 2 ^ 63 := by
  intro fuel
  induction fuel with
  | zero => intro k p _ h; simp [allocate_loop] at h
  | succ fuel ih =>
    intro k p hk h
    unfold allocate_loop at h
    by_cases hlt : 2 ^ k < size
    · rw [if_pos hlt] at h
      by_cases hk63 : k < 63
      · have hmod : 2 ^ k * 2 % SIZE_MOD = 2 ^ (k + 1) := by
          rw [SIZE_MOD_eq, ← pow_succ]
          apply Nat.mod_eq_of_lt
          exact Nat.pow_lt_pow_right (by norm_num) (by omega)
        rw [hmod] at h
        exact ih (k + 1) p (by omega) h
      · have hk' : k = 63 := by omega
        subst hk'
        have hmod : 2 ^ 63 * 2 % SIZE_MOD = 0 := by
          rw [SIZE_MOD_eq]; norm_num
        rw [hmod, allocate_loop_zero size (by omega)] at h
        simp at h
    · rw [if_neg hlt] at h
      have hp : p = 2 ^ k := by simpa using h.symm
      subst hp
      exact ⟨⟨k, rfl⟩, by omega, Nat.pow_le_pow_right (by norm_num) hk⟩

theorem grown_by_policy_refl (n : Nat) : grown_by_policy n n := Or.inl rfl

theorem grown_by_policy_trans {a b c : Nat} (h1 : grown_by_policy a b)
    (h2 : grown_by_policy b c) : grown_by_policy a c := by
  rcases h1 with h1 | ⟨h1, _⟩
  · rw [h1] at h2; exact h2
  · rcases h2 with h2 | ⟨h2, hk⟩
    · rw [h2]; exact Or.inr ⟨h1, by assumption⟩
    · exact Or.inr ⟨by omega, hk⟩

theorem grown_by_policy_le {a b : Nat} (h : grown_by_policy a b) : a ≤ b := by
  rcases h with h | ⟨h, _⟩ <;> omega

theorem grown_by_policy_pow2 {a b : Nat} (h : grown_by_policy a b) (ha : pow2_or_zero a) :
    pow2_or_zero b := by
  rcases h with h | ⟨_, hk⟩
  · rw [h]; exact ha
  · exact Or.inr hk

theorem allocate_policy (c : unordered_vector T) (n : Nat) :
    grown_by_policy c.m_capacity (allocate c n).state.m_capacity ∧
    (∀ e, (allocate c n).result ≠ .thrown e) ∧
    (allocate c n).state.m_size = c.m_size := by
  unfold allocate
  by_cases hn : n > c.m_capacity
  · rw [if_pos hn]
    cases hloop : allocate_loop 65 1 n with
    | none => exact ⟨Or.inl rfl, (by intro e h; cases h), rfl⟩
    | some p =>
      obtain ⟨hpow, hle, _⟩ := allocate_loop_sound n 65 0 p (by omega) (by simpa using hloop)
      have hp : p > c.m_capacity := by omega
      simp only [reserve, if_pos hp]
      exact ⟨Or.inr ⟨hp, hpow⟩, (by intro e h; cases h), trivial⟩
  · rw [if_neg hn]
    exact ⟨Or.inl rfl, (by intro e h; cases h), rfl⟩

theorem allocate_noop (c : unordered_vector T) (n : Nat) (h : ¬ n > c.m_capacity) :
    allocate c n = ⟨c, .value ()⟩ := by
  simp [allocate, h]

theorem allocate_grow (c : unordered_vector T) (n : Nat) (h : n > c.m_capacity)
    (hn : n ≤ 2 ^ 63) :
    ∃ p, smallest_pow2_ge p n ∧ p ≤ 2 ^ 63 ∧
      allocate c n
        = ⟨{ c with m_data := some (reserved_buffer c p), m_capacity := p }, .value ()⟩ := by
  obtain ⟨p, hloop, hp, hp63⟩ := allocate_loop_spec n hn
  have h4 : p > c.m_capacity := by have := hp.2.1; omega
  refine ⟨p, hp, hp63, ?_⟩
  cases hd : c.m_data with
  | none => simp [allocate, h, hloop, reserve, h4, reserved_buffer, hd]
  | some b => simp [allocate, h, hloop, reserve, h4, reserved_buffer, hd]

theorem reserved_buffer_length (c : unordered_vector T) (p : Nat) :
    (reserved_buffer c p).cells.length = p := by
  unfold reserved_buffer
  cases c.m_data with
  | none => simp [allocator_allocate]
  | some b => simp [std_copy, allocator_allocate, foldl_set_length]

theorem reserved_buffer_load (c : unordered_vector T) (p j : Nat) (hj : j < c.m_size)
    (hp : j < p) :
    load (some (reserved_buffer c p)) j = load c.m_data j := by
  unfold reserved_buffer
  cases hd : c.m_data with
  | none => simp [load, allocator_allocate]
  | some b =>
    have h := foldl_set_getD (some b) c.m_size (List.replicate p none) j
    rw [if_pos ⟨hj, by simpa using hp⟩] at h
    simpa [load, std_copy, allocator_allocate] using h

theorem replicate_none_getD (p j : Nat) :
    (List.replicate p (none : Option T)).getD j none = none := by
  rw [List.getD_eq_getElem?_getD, List.getElem?_replicate]
  by_cases h : j < p
  · simp [h]
  · simp [h]

theorem reserved_buffer_load_ge (c : unordered_vector T) (p j : Nat) (hj : c.m_size ≤ j) :
    load (some (reserved_buffer c p)) j = none := by
  unfold reserved_buffer
  cases hd : c.m_data with
  | none =>
    simp only [load, allocator_allocate]
    exact replicate_none_getD p j
  | some b =>
    have h := foldl_set_getD (some b) c.m_size (List.replicate p none) j
    rw [if_neg (by omega), replicate_none_getD] at h
    simp only [load, std_copy, allocator_allocate]
    exact h

theorem steady_of_eq_capacity {α : Type} {c c1 : unordered_vector T} {o : Outcome T α}
    (h : steady c1 o) (hc : grown_by_policy c.m_capacity c1.m_capacity) : steady c o :=
  ⟨grown_by_policy_trans hc h.1, h.2⟩

theorem steady_allocate (c : unordered_vector T) (n : Nat) : steady c (allocate c n) :=
  ⟨(allocate_policy c n).1, (allocate_policy c n).2.1⟩

theorem steady_push_back (c : unordered_vector T) (value : ValueRef T) :
    steady c (push_back c value) := by
  unfold push_back
  by_cases hgrow : size_add c.m_size 1 > c.m_capacity
  · simp only [hgrow, if_true]
    have h := steady_allocate { c with m_size := size_add c.m_size 1 } (size_add c.m_size 1)
    cases hres : (allocate { c with m_size := size_add c.m_size 1 } (size_add c.m_size 1)).result with
    | value u => exact ⟨h.1, by intro e he; cases he⟩
    | thrown e => exact absurd hres (h.2 e)
    | diverged => exact ⟨h.1, by intro e he; cases he⟩
  · simp only [hgrow, if_false]
    exact ⟨Or.inl rfl, by intro e he; cases he⟩

theorem steady_insert_round (c : unordered_vector T) (pos : Nat) (value : T) :
    steady c (insert_round c pos value) := by
  unfold insert_round
  have h := steady_push_back c (.cell (data_addr c.m_data) pos)
  dsimp only
  cases hres : (push_back c (.cell (data_addr c.m_data) pos)).result with
  | value u => exact ⟨h.1, by intro e he; cases he⟩
  | thrown e => exact absurd hres (h.2 e)
  | diverged => exact ⟨h.1, by intro e he; cases he⟩

theorem steady_insert [Inhabited T] (c : unordered_vector T) (index : Nat) (value : T) :
    steady c (insert c index value) := by
  unfold insert
  have h := steady_push_back c (.cell (data_addr c.m_data) index)
  dsimp only
  cases hres : (push_back c (.cell (data_addr c.m_data) index)).result with
  | value u => exact ⟨h.1, by intro e he; cases he⟩
  | thrown e => exact absurd hres (h.2 e)
  | diverged => exact ⟨h.1, by intro e he; cases he⟩

theorem steady_insert_values_loop (index : Nat) (values : List T) :
    ∀ (i : Nat) (c : unordered_vector T), steady c (insert_values_loop index values i c) := by
  induction values with
  | nil => intro i c; exact ⟨Or.inl rfl, by intro e he; cases he⟩
  | cons v rest ih =>
    intro i c
    unfold insert_values_loop
    have h := steady_insert_round c (size_add index i) v
    dsimp only
    cases hres : (insert_round c (size_add index i) v).result with
    | value u => exact steady_of_eq_capacity (ih (i + 1) _) h.1
    | thrown e => exact absurd hres (h.2 e)
    | diverged => exact ⟨h.1, by intro e he; cases he⟩

theorem steady_insert_count_loop (index : Nat) (value : T) :
    ∀ (todo i : Nat) (c : unordered_vector T),
      steady c (insert_count_loop index value todo i c) := by
  intro todo
  induction todo with
  | zero => intro i c; exact ⟨Or.inl rfl, by intro e he; cases he⟩
  | succ todo ih =>
    intro i c
    unfold insert_count_loop
    have h := steady_insert_round c (size_add index i) value
    dsimp only
    cases hres : (insert_round c (size_add index i) value).result with
    | value u => exact steady_of_eq_capacity (ih (i + 1) _) h.1
    | thrown e => exact absurd hres (h.2 e)
    | diverged => exact ⟨h.1, by intro e he; cases he⟩

theorem steady_insert_count [Inhabited T] (c : unordered_vector T) (index count : Nat)
    (value : T) : steady c (insert_count c index count value) := by
  unfold insert_count
  by_cases hgrow : size_add c.m_size count > c.m_capacity
  · simp only [hgrow, if_true]
    have h := steady_allocate c (size_add c.m_size count)
    cases hres : (allocate c (size_add c.m_size count)).result with
    | value u =>
      have hl := steady_insert_count_loop index value count 0
        (allocate c (size_add c.m_size count)).state
      dsimp only
      cases hres2 : (insert_count_loop index value count 0
          (allocate c (size_add c.m_size count)).state).result with
      | value u2 => exact ⟨grown_by_policy_trans h.1 hl.1, by intro e he; cases he⟩
      | thrown e => exact absurd hres2 (hl.2 e)
      | diverged => exact ⟨grown_by_policy_trans h.1 hl.1, by intro e he; cases he⟩
    | thrown e => exact absurd hres (h.2 e)
    | diverged => exact ⟨h.1, by intro e he; cases he⟩
  · simp only [hgrow, if_false]
    have hl := steady_insert_count_loop index value count 0 c
    cases hres2 : (insert_count_loop index value count 0 c).result with
    | value u2 => exact ⟨hl.1, by intro e he; cases he⟩
    | thrown e => exact absurd hres2 (hl.2 e)
    | diverged => exact ⟨hl.1, by intro e he; cases he⟩

theorem steady_insert_list [Inhabited T] (c : unordered_vector T) (index : Nat)
    (ilist : List T) : steady c (insert_list c index ilist) := by
  unfold insert_list
  by_cases hgrow : size_add c.m_size ilist.length > c.m_capacity
  · simp only [hgrow, if_true]
    have h := steady_allocate c (size_add c.m_size ilist.length)
    cases hres : (allocate c (size_add c.m_size ilist.length)).result with
    | value u =>
      have hl := steady_insert_values_loop index ilist 0
        (allocate c (size_add c.m_size ilist.length)).state
      dsimp only
      cases hres2 : (insert_values_loop index ilist 0
          (allocate c (size_add c.m_size ilist.length)).state).result with
      | value u2 => exact ⟨grown_by_policy_trans h.1 hl.1, by intro e he; cases he⟩
      | thrown e => exact absurd hres2 (hl.2 e)
      | diverged => exact ⟨grown_by_policy_trans h.1 hl.1, by intro e he; cases he⟩
    | thrown e => exact absurd hres (h.2 e)
    | diverged => exact ⟨h.1, by intro e he; cases he⟩
  · simp only [hgrow, if_false]
    have hl := steady_insert_values_loop index ilist 0 c
    cases hres2 : (insert_values_loop index ilist 0 c).result with
    | value u2 => exact ⟨hl.1, by intro e he; cases he⟩
    | thrown e => exact absurd hres2 (hl.2 e)
    | diverged => exact ⟨hl.1, by intro e he; cases he⟩

theorem steady_insert_range [Inhabited T] (c : unordered_vector T) (index : Nat)
    (values : List T) : steady c (insert_range c index values) := by
  unfold insert_range
  have hl := steady_insert_values_loop index values 0 c
  dsimp only
  cases hres2 : (insert_values_loop index values 0 c).result with
  | value u2 => exact ⟨hl.1, by intro e he; cases he⟩
  | thrown e => exact absurd hres2 (hl.2 e)
  | diverged => exact ⟨hl.1, by intro e he; cases he⟩

theorem steady_resize_pop_loop [Inhabited T] (count : Nat) :
    ∀ (fuel : Nat) (c : unordered_vector T),
      (resize_pop_loop fuel c count).state.m_capacity = c.m_capacity ∧
      ∀ e, (resize_pop_loop fuel c count).result ≠ .thrown e := by
  intro fuel
  induction fuel with
  | zero => intro c; exact ⟨rfl, by intro e he; cases he⟩
  | succ fuel ih =>
    intro c
    unfold resize_pop_loop
    by_cases h : c.m_size ≠ count
    · rw [if_pos h]
      exact ih (pop_back c)
    · rw [if_neg h]
      exact ⟨rfl, by intro e he; cases he⟩

theorem steady_resize_push_loop (count : Nat) (value : ValueRef T) :
    ∀ (fuel : Nat) (c : unordered_vector T),
      steady c (resize_push_loop fuel c count value) := by
  intro fuel
  induction fuel with
  | zero => intro c; exact ⟨Or.inl rfl, by intro e he; cases he⟩
  | succ fuel ih =>
    intro c
    unfold resize_push_loop
    by_cases h : c.m_size ≠ count
    · rw [if_pos h]
      have hp := steady_push_back c value
      cases hres : (push_back c value).result with
      | value u => exact steady_of_eq_capacity (ih _) hp.1
      | thrown e => exact absurd hres (hp.2 e)
      | diverged => exact ⟨hp.1, by intro e he; cases he⟩
    · rw [if_neg h]
      exact ⟨Or.inl rfl, by intro e he; cases he⟩

theorem steady_resize_value [Inhabited T] (c : unordered_vector T) (count : Nat)
    (value : ValueRef T) : steady c (resize_value c count value) := by
  unfold resize_value
  by_cases h1 : c.m_size > count
  · rw [if_pos h1]
    have h := steady_resize_pop_loop count (c.m_size - count + 1) c
    exact ⟨Or.inl h.1, h.2⟩
  · rw [if_neg h1]
    by_cases h2 : c.m_size < count
    · rw [if_pos h2]
      by_cases hgrow : size_add c.m_size count > c.m_capacity
      · simp only [hgrow, if_true]
        have h := steady_allocate c (size_add c.m_size count)
        cases hres : (allocate c (size_add c.m_size count)).result with
        | value u =>
          exact steady_of_eq_capacity (steady_resize_push_loop count value _ _) h.1
        | thrown e => exact absurd hres (h.2 e)
        | diverged => exact ⟨h.1, by intro e he; cases he⟩
      · simp only [hgrow, if_false]
        exact steady_resize_push_loop count value _ _
    · rw [if_neg h2]
      exact ⟨Or.inl rfl, by intro e he; cases he⟩

theorem erase_range_loop_capacity [Inhabited T] (stop : Int) :
    ∀ (fuel : Nat) (c : unordered_vector T) (itr index : Int),
      (erase_range_loop fuel c itr stop index).state.m_capacity = c.m_capacity ∧
      ∀ e, (erase_range_loop fuel c itr stop index).result ≠ .thrown e := by
  intro fuel
  induction fuel with
  | zero => intro c itr index; exact ⟨rfl, by intro e he; cases he⟩
  | succ fuel ih =>
    intro c itr index
    unfold erase_range_loop
    by_cases h : itr ≠ stop
    · rw [if_pos h]
      exact ih _ _ _
    · rw [if_neg h]
      exact ⟨rfl, by intro e he; cases he⟩

theorem well_formed_iff (c : unordered_vector T) :
    well_formed c ↔
      c.m_size ≤ c.m_capacity ∧ buffer_length c.m_data = c.m_capacity ∧ c.m_capacity < SIZE_MOD :=
  Iff.rfl

theorem buffer_length_store (d : Option (Buffer T)) (i : Nat) (v : Option T) :
    buffer_length (store d i v) = buffer_length d := by
  cases d with
  | none => rfl
  | some b => simp [buffer_length, store]

theorem load_store (d : Option (Buffer T)) (i j : Nat) (v : Option T) :
    load (store d i v) j = if i = j ∧ i < buffer_length d then v else load d j := by
  cases d with
  | none => simp [load, store, buffer_length]
  | some b =>
    simp only [load, store, buffer_length, List.getD_eq_getElem?_getD, List.getElem?_set]
    by_cases hij : i = j
    · subst hij
      by_cases hlen : i < b.cells.length
      · simp [hlen]
      · simp [hlen]
        rw [List.getElem?_eq_none (by omega)]
        rfl
    · simp [hij]

theorem load_ge_length (d : Option (Buffer T)) (j : Nat) (h : buffer_length d ≤ j) :
    load d j = none := by
  cases d with
  | none => rfl
  | some b =>
    simp only [load, List.getD_eq_getElem?_getD]
    rw [List.getElem?_eq_none (by simpa [buffer_length] using h)]
    rfl

theorem buffer_length_assign_each (d : Option (Buffer T)) (n : Nat) (v : Option T) :
    buffer_length (assign_each d n v) = buffer_length d := by
  unfold assign_each
  induction n with
  | zero => simp
  | succ n ih => simp [List.range_succ, List.foldl_append, buffer_length_store, ih]

theorem load_assign_each (d : Option (Buffer T)) (n : Nat) (v : Option T) (j : Nat) :
    load (assign_each d n v) j = if j < n ∧ j < buffer_length d then v else load d j := by
  induction n with
  | zero => simp [assign_each]
  | succ n ih =>
    have hlen := buffer_length_assign_each d n v
    unfold assign_each at ih hlen ⊢
    simp only [List.range_succ, List.foldl_append, List.foldl_cons, List.foldl_nil]
    rw [load_store, hlen, ih]
    by_cases hnj : n = j
    · subst hnj
      by_cases hl : n < buffer_length d
      · simp [hl]
      · simp [hl]
    · by_cases h1 : j < n
      · have h2 : j < n + 1 := by omega
        simp [hnj, h1, h2]
      · have h2 : ¬ j < n + 1 := by omega
        simp [hnj, h1, h2]

theorem load_copy_values_ge (values : List T) :
    ∀ (d : Option (Buffer T)) (k j : Nat), k + values.length ≤ j →
      load (copy_values d k values) j = load d j := by
  induction values with
  | nil => intro d k j _; rfl
  | cons v rest ih =>
    intro d k j hj
    simp only [copy_values]
    simp only [List.length_cons] at hj
    rw [ih _ _ _ (by omega), load_store, if_neg (by omega)]

theorem push_back_wf (c : unordered_vector T) (value : ValueRef T) (hwf : well_formed c)
    (hs : c.m_size < 2 ^ 63) :
    (push_back c value).result = .value () ∧
    well_formed (push_back c value).state ∧
    (push_back c value).state.m_size = c.m_size + 1 ∧
    c.m_capacity ≤ (push_back c value).state.m_capacity ∧
    (∀ j, j < c.m_size → subscript (push_back c value).state j = subscript c j) := by
  by_cases hlt : c.m_size < c.m_capacity
  · rw [push_back_spare c _ hlt hwf.2.2]
    refine ⟨rfl, ?_, rfl, le_refl _, ?_⟩
    · exact well_formed_store (c := { c with m_size := c.m_size + 1 })
        ⟨by show c.m_size + 1 ≤ c.m_capacity; omega, hwf.2.1, hwf.2.2⟩ c.m_size
        (value.read c.m_data)
    · intro j hj
      simp only [subscript]
      rw [load_store_ne _ _ (by omega)]
  · have hfull : c.m_size = c.m_capacity := by have := hwf.1; omega
    obtain ⟨p, hp, hp63, heq⟩ := push_back_grow c value hfull hs
    rw [heq]
    have hlen := grown_buffer_length c p
    have hple := hp.2.1
    refine ⟨rfl, ?_, rfl, by show c.m_capacity ≤ p; omega, ?_⟩
    · refine ⟨by show c.m_size + 1 ≤ p; omega, ?_, by rw [SIZE_MOD_eq]; show p < 2 ^ 64; omega⟩
      simp [store, hlen]
    · intro j hj
      simp only [subscript]
      rw [load_store_ne _ _ (by omega), grown_buffer_load c p j hj (by omega)]

theorem insert_round_state [Inhabited T] (c : unordered_vector T) (pos : Nat) (value : T) :
    (insert_round c pos value).state = (insert c pos value).state := by
  unfold insert_round insert
  dsimp only
  cases (push_back c (.cell (data_addr c.m_data) pos)).result <;> rfl

theorem insert_count_loop_eq (index : Nat) (value : T) :
    ∀ (todo i : Nat) (c : unordered_vector T),
      insert_count_loop index value todo i c
        = insert_values_loop index (List.replicate todo value) i c := by
  intro todo
  induction todo with
  | zero => intro i c; rfl
  | succ todo ih =>
    intro i c
    simp only [insert_count_loop, insert_values_loop, List.replicate_succ]
    cases (insert_round c (size_add index i) value).result with
    | value u => exact ih _ _
    | thrown e => rfl
    | diverged => rfl

theorem insert_round_spare [Inhabited T] (c : unordered_vector T) (pos : Nat) (v : T)
    (hwf : well_formed c) (hlt : c.m_size < c.m_capacity) (hpos : pos < c.m_size) :
    (insert_round c pos v).result = .value () ∧
    well_formed (insert_round c pos v).state ∧
    (insert_round c pos v).state.m_size = c.m_size + 1 ∧
    (insert_round c pos v).state.m_capacity = c.m_capacity ∧
    subscript (insert_round c pos v).state pos = some v ∧
    subscript (insert_round c pos v).state c.m_size = subscript c pos ∧
    (∀ j, j ≠ pos → j ≠ c.m_size →
      subscript (insert_round c pos v).state j = subscript c j) := by
  obtain ⟨_, h2, h3, h4, h5, h6⟩ := insert_spare_spec c pos v hwf hlt (by omega)
  have hpush := push_back_spare c (.cell (data_addr c.m_data) pos) hlt hwf.2.2
  have hres : (insert_round c pos v).result = .value () := by
    simp only [insert_round, hpush]
  have hwf1 : well_formed (insert_round c pos v).state := by
    simp only [insert_round, hpush]
    exact well_formed_store (well_formed_store (c := { c with m_size := c.m_size + 1 })
      ⟨by show c.m_size + 1 ≤ c.m_capacity; omega, hwf.2.1, hwf.2.2⟩ c.m_size _) pos _
  rw [insert_round_state]
  rw [insert_round_state] at hwf1
  exact ⟨hres, hwf1, h2, h3, h4, h5 hpos, h6⟩

theorem insert_values_loop_spec [Inhabited T] (index : Nat) (values : List T) :
    ∀ (i : Nat) (c : unordered_vector T), well_formed c →
      c.m_size + values.length ≤ c.m_capacity →
      index + i + values.length ≤ c.m_size →
      (insert_values_loop index values i c).result = .value () ∧
      well_formed (insert_values_loop index values i c).state ∧
      (insert_values_loop index values i c).state.m_size = c.m_size + values.length ∧
      (insert_values_loop index values i c).state.m_capacity = c.m_capacity ∧
      (∀ k (hk : k < values.length),
        subscript (insert_values_loop index values i c).state (index + i + k)
          = some values[k]) ∧
      (∀ k, k < values.length →
        subscript (insert_values_loop index values i c).state (c.m_size + k)
          = subscript c (index + i + k)) ∧
      (∀ j, (j < index + i ∨ index + i + values.length ≤ j) → j < c.m_size →
        subscript (insert_values_loop index values i c).state j = subscript c j) := by
  induction values with
  | nil =>
    intro i c hwf _ _
    refine ⟨rfl, hwf, rfl, rfl, ?_, ?_, ?_⟩
    · intro k hk; simp at hk
    · intro k hk; simp at hk
    · intro j _ _; rfl
  | cons v rest ih =>
    intro i c hwf hcap hidx
    simp only [List.length_cons] at hcap hidx
    have hmod : size_add index i = index + i := by
      unfold size_add
      exact Nat.mod_eq_of_lt (by have := hwf.1; have := hwf.2.2; omega)
    obtain ⟨h1, h2, h3, h4, h5, h6, h7⟩ :=
      insert_round_spare c (index + i) v hwf (by omega) (by omega)
    obtain ⟨g1, g2, g3, g4, g5, g6, g7⟩ := ih (i + 1) (insert_round c (index + i) v).state h2
      (by rw [h3, h4]; omega) (by rw [h3]; omega)
    simp only [insert_values_loop, hmod, h1]
    refine ⟨g1, g2, by rw [g3, h3, List.length_cons]; omega, by rw [g4, h4], ?_, ?_, ?_⟩
    · intro k hk
      cases k with
      | zero =>
        have h := g7 (index + i) (Or.inl (by omega)) (by rw [h3]; omega)
        rw [h5] at h
        simpa using h
      | succ k =>
        have hk2 : k < rest.length := by simpa using hk
        have h := g5 k hk2
        have hidx2 : index + i + (k + 1) = index + (i + 1) + k := by omega
        rw [hidx2, h]
        rfl
    · intro k hk
      cases k with
      | zero =>
        have h := g7 c.m_size (Or.inr (by omega)) (by rw [h3]; omega)
        rw [h6] at h
        simpa using h
      | succ k =>
        have hk2 : k < rest.length := by simpa using hk
        have h := g6 k hk2
        rw [h3] at h
        have hidx2 : c.m_size + (k + 1) = c.m_size + 1 + k := by omega
        have hidx3 : index + i + (k + 1) = index + (i + 1) + k := by omega
        rw [hidx2, hidx3, h, h7 _ (by omega) (by omega)]
    · intro j hj hjn
      simp only [List.length_cons] at hj
      rw [g7 j (by omega) (by rw [h3]; omega), h7 j (by omega) (by omega)]

theorem allocate_if_eq (c : unordered_vector T) (n : Nat) :
    (if n > c.m_capacity then allocate c n else ⟨c, .value ()⟩) = allocate c n := by
  by_cases h : n > c.m_capacity
  · rw [if_pos h]
  · rw [if_neg h, allocate_noop c n h]

theorem allocate_spec (c : unordered_vector T) (n : Nat)
    (hlen : buffer_length c.m_data = c.m_capacity) (hcap : c.m_capacity < SIZE_MOD)
    (hn : n ≤ 2 ^ 63) (hsz : c.m_size ≤ n ∨ c.m_size ≤ c.m_capacity) :
    (allocate c n).result = .value () ∧
    well_formed (allocate c n).state ∧
    (allocate c n).state.m_size = c.m_size ∧
    n ≤ (allocate c n).state.m_capacity ∧
    c.m_capacity ≤ (allocate c n).state.m_capacity ∧
    (∀ j, j < c.m_size → subscript (allocate c n).state j = subscript c j) ∧
    (n ≤ c.m_capacity → (allocate c n).state = c) ∧
    (c.m_capacity < n →
      smallest_pow2_ge (allocate c n).state.m_capacity n ∧
      ∀ j, c.m_size ≤ j → subscript (allocate c n).state j = none) := by
  by_cases h : n > c.m_capacity
  · obtain ⟨p, hp, hp63, heq⟩ := allocate_grow c n h hn
    rw [heq]
    have hple := hp.2.1
    have hlenp := reserved_buffer_length c p
    refine ⟨rfl, ⟨?_, ?_, ?_⟩, rfl, hple, ?_, ?_, ?_, ?_⟩
    · show c.m_size ≤ p
      omega
    · exact hlenp
    · rw [SIZE_MOD_eq]; show p < 2 ^ 64; omega
    · show c.m_capacity ≤ p
      omega
    · intro j hj
      exact reserved_buffer_load c p j hj (by omega)
    · intro hle; omega
    · intro _
      exact ⟨hp, fun j hj => reserved_buffer_load_ge c p j hj⟩
  · rw [allocate_noop c n h]
    refine ⟨rfl, ⟨?_, hlen, hcap⟩, rfl, by show n ≤ c.m_capacity; omega, le_refl _, ?_, ?_, ?_⟩
    · show c.m_size ≤ c.m_capacity
      omega
    · intro j _; rfl
    · intro _; rfl
    · intro hlt; omega

theorem size_add_lt {a b : Nat} (h : a + b < SIZE_MOD) : size_add a b = a + b := by
  unfold size_add
  exact Nat.mod_eq_of_lt h

theorem insert_list_spec [Inhabited T] (c : unordered_vector T) (index : Nat)
    (ilist : List T) (hwf : well_formed c) (hidx : index + ilist.length ≤ c.m_size)
    (hs : c.m_size + ilist.length ≤ 2 ^ 63) :
    (insert_list c index ilist).result = .value index ∧
    well_formed (insert_list c index ilist).state ∧
    (insert_list c index ilist).state.m_size = c.m_size + ilist.length ∧
    c.m_capacity ≤ (insert_list c index ilist).state.m_capacity ∧
    (∀ k (hk : k < ilist.length),
      subscript (insert_list c index ilist).state (index + k) = some ilist[k]) ∧
    (∀ k, k < ilist.length →
      subscript (insert_list c index ilist).state (c.m_size + k) = subscript c (index + k)) ∧
    (∀ j, (j < index ∨ index + ilist.length ≤ j) → j < c.m_size →
      subscript (insert_list c index ilist).state j = subscript c j) := by
  have hmod : size_add c.m_size ilist.length = c.m_size + ilist.length :=
    size_add_lt (by rw [SIZE_MOD_eq]; omega)
  obtain ⟨a1, a2, a3, a4, a5, a6, _, _⟩ :=
    allocate_spec c (c.m_size + ilist.length) hwf.2.1 hwf.2.2 hs (Or.inl (by omega))
  obtain ⟨g1, g2, g3, g4, g5, g6, g7⟩ :=
    insert_values_loop_spec index ilist 0 (allocate c (c.m_size + ilist.length)).state a2
      (by rw [a3]; exact a4) (by rw [a3]; omega)
  have hrun : insert_list c index ilist
      = ⟨(insert_values_loop index ilist 0 (allocate c (c.m_size + ilist.length)).state).state,
         .value index⟩ := by
    unfold insert_list
    rw [hmod, allocate_if_eq]
    simp only [a1, g1]
  rw [hrun]
  refine ⟨rfl, g2, by rw [g3, a3], by rw [g4]; exact a5, ?_, ?_, ?_⟩
  · intro k hk
    have h := g5 k hk
    simpa using h
  · intro k hk
    have h := g6 k hk
    rw [a3] at h
    rw [h, a6 _ (by omega)]
    simp
  · intro j hj hjn
    rw [g7 j (by simpa using hj) (by rw [a3]; exact hjn), a6 j hjn]

theorem insert_count_spec [Inhabited T] (c : unordered_vector T) (index count : Nat)
    (value : T) (hwf : well_formed c) (hidx : index + count ≤ c.m_size)
    (hs : c.m_size + count ≤ 2 ^ 63) :
    (insert_count c index count value).result = .value index ∧
    well_formed (insert_count c index count value).state ∧
    (insert_count c index count value).state.m_size = c.m_size + count ∧
    c.m_capacity ≤ (insert_count c index count value).state.m_capacity ∧
    (∀ k, k < count →
      subscript (insert_count c index count value).state (index + k) = some value) ∧
    (∀ k, k < count →
      subscript (insert_count c index count value).state (c.m_size + k)
        = subscript c (index + k)) ∧
    (∀ j, (j < index ∨ index + count ≤ j) → j < c.m_size →
      subscript (insert_count c index count value).state j = subscript c j) := by
  have heq : insert_count c index count value
      = insert_list c index (List.replicate count value) := by
    unfold insert_count insert_list
    simp only [insert_count_loop_eq, List.length_replicate]
  rw [heq]
  obtain ⟨g1, g2, g3, g4, g5, g6, g7⟩ :=
    insert_list_spec c index (List.replicate count value) hwf
      (by simpa using hidx) (by simpa using hs)
  simp only [List.length_replicate] at g3 g5 g6 g7
  refine ⟨g1, g2, g3, g4, ?_, g6, g7⟩
  intro k hk
  have h := g5 k hk
  simpa using h

theorem pop_back_spec [Inhabited T] (c : unordered_vector T) (hwf : well_formed c)
    (hpos : 0 < c.m_size) :
    well_formed (pop_back c) ∧
    (pop_back c).m_size = c.m_size - 1 ∧
    (pop_back c).m_capacity = c.m_capacity ∧
    subscript (pop_back c) (c.m_size - 1) = some default ∧
    (∀ j, j ≠ c.m_size - 1 → subscript (pop_back c) j = subscript c j) := by
  have hcap : c.m_size < SIZE_MOD := lt_of_le_of_lt hwf.1 hwf.2.2
  have hdec : size_dec c.m_size = c.m_size - 1 := size_dec_pos hpos hcap
  have hle := hwf.1
  have hlen : buffer_length c.m_data = c.m_capacity := hwf.2.1
  refine ⟨⟨?_, ?_, hwf.2.2⟩, ?_, rfl, ?_, ?_⟩
  · simp only [pop_back, hdec]; omega
  · show buffer_length (pop_back c).m_data = c.m_capacity
    simp only [pop_back, buffer_length_store]
    exact hlen
  · simp only [pop_back, hdec]
  · simp only [pop_back, subscript, hdec]
    rw [load_store, if_pos ⟨rfl, by omega⟩]
  · intro j hj
    simp only [pop_back, subscript, hdec]
    rw [load_store, if_neg (by omega)]

theorem resize_pop_loop_spec [Inhabited T] (count : Nat) :
    ∀ (fuel : Nat) (c : unordered_vector T), well_formed c → count ≤ c.m_size →
      c.m_size - count < fuel →
      (resize_pop_loop fuel c count).result = .value () ∧
      well_formed (resize_pop_loop fuel c count).state ∧
      (resize_pop_loop fuel c count).state.m_size = count ∧
      (resize_pop_loop fuel c count).state.m_capacity = c.m_capacity ∧
      (∀ j, count ≤ j → j < c.m_size →
        subscript (resize_pop_loop fuel c count).state j = some default) ∧
      (∀ j, (j < count ∨ c.m_size ≤ j) →
        subscript (resize_pop_loop fuel c count).state j = subscript c j) := by
  intro fuel
  induction fuel with
  | zero => intro c _ _ h; omega
  | succ fuel ih =>
    intro c hwf hle hfuel
    unfold resize_pop_loop
    by_cases hne : c.m_size ≠ count
    · rw [if_pos hne]
      obtain ⟨p1, p2, p3, p4, p5⟩ := pop_back_spec c hwf (by omega)
      obtain ⟨g1, g2, g3, g4, g5, g6⟩ := ih (pop_back c) p1 (by omega) (by omega)
      refine ⟨g1, g2, g3, by rw [g4, p3], ?_, ?_⟩
      · intro j hj1 hj2
        by_cases hlast : j = c.m_size - 1
        · rw [g6 j (Or.inr (by omega)), hlast, p4]
        · exact g5 j hj1 (by omega)
      · intro j hj
        rw [g6 j (by omega), p5 j (by omega)]
    · rw [if_neg hne]
      have heq : c.m_size = count := by omega
      refine ⟨rfl, hwf, heq, rfl, ?_, ?_⟩
      · intro j hj1 hj2; omega
      · intro j _; rfl

theorem resize_push_loop_spec (count : Nat) (v : T) :
    ∀ (fuel : Nat) (c : unordered_vector T), well_formed c → c.m_size ≤ count →
      count - c.m_size < fuel → count ≤ 2 ^ 63 →
      (resize_push_loop fuel c count (.object v)).result = .value () ∧
      well_formed (resize_push_loop fuel c count (.object v)).state ∧
      (resize_push_loop fuel c count (.object v)).state.m_size = count ∧
      c.m_capacity ≤ (resize_push_loop fuel c count (.object v)).state.m_capacity ∧
      (∀ j, j < c.m_size →
        subscript (resize_push_loop fuel c count (.object v)).state j = subscript c j) ∧
      (∀ j, c.m_size ≤ j → j < count →
        subscript (resize_push_loop fuel c count (.object v)).state j = some v) := by
  intro fuel
  induction fuel with
  | zero => intro c _ _ h; omega
  | succ fuel ih =>
    intro c hwf hle hfuel h63
    unfold resize_push_loop
    by_cases hne : c.m_size ≠ count
    · rw [if_pos hne]
      obtain ⟨p1, p2, p3, p4, p5⟩ := push_back_object c v hwf (by omega)
      obtain ⟨_, _, _, q4, _⟩ := push_back_wf c (.object v) hwf (by omega)
      obtain ⟨g1, g2, g3, g4, g5, g6⟩ :=
        ih (push_back c (.object v)).state p2 (by omega) (by omega) h63
      simp only [p1]
      refine ⟨g1, g2, g3, le_trans q4 g4, ?_, ?_⟩
      · intro j hj
        rw [g5 j (by omega), p4 j hj]
      · intro j hj1 hj2
        by_cases hfirst : j = c.m_size
        · rw [g5 j (by omega), hfirst, p5]
        · exact g6 j (by omega) hj2
    · rw [if_neg hne]
      have heq : c.m_size = count := by omega
      refine ⟨rfl, hwf, heq, le_refl _, ?_, ?_⟩
      · intro j _; rfl
      · intro j hj1 hj2; omega

theorem resize_value_spec [Inhabited T] (c : unordered_vector T) (count : Nat) (v : T)
    (hwf : well_formed c) (hs : count ≤ c.m_size ∨ c.m_size + count ≤ 2 ^ 63) :
    (resize_value c count (.object v)).result = .value () ∧
    well_formed (resize_value c count (.object v)).state ∧
    (resize_value c count (.object v)).state.m_size = count ∧
    c.m_capacity ≤ (resize_value c count (.object v)).state.m_capacity ∧
    (∀ j, j < c.m_size → j < count →
      subscript (resize_value c count (.object v)).state j = subscript c j) ∧
    (∀ j, c.m_size ≤ j → j < count →
      subscript (resize_value c count (.object v)).state j = some v) ∧
    (∀ j, count ≤ j → j < c.m_size →
      subscript (resize_value c count (.object v)).state j = some default) := by
  unfold resize_value
  by_cases h1 : c.m_size > count
  · rw [if_pos h1]
    obtain ⟨g1, g2, g3, g4, g5, g6⟩ :=
      resize_pop_loop_spec count (c.m_size - count + 1) c hwf (by omega) (by omega)
    refine ⟨g1, g2, g3, by rw [g4], ?_, ?_, g5⟩
    · intro j _ hj; exact g6 j (Or.inl hj)
    · intro j hj1 hj2; omega
  · rw [if_neg h1]
    by_cases h2 : c.m_size < count
    · rw [if_pos h2]
      have h63 : c.m_size + count ≤ 2 ^ 63 := by omega
      have hmod : size_add c.m_size count = c.m_size + count :=
        size_add_lt (by rw [SIZE_MOD_eq]; omega)
      rw [hmod, allocate_if_eq]
      obtain ⟨a1, a2, a3, a4, a5, a6, _, _⟩ :=
        allocate_spec c (c.m_size + count) hwf.2.1 hwf.2.2 h63 (Or.inl (by omega))
      obtain ⟨g1, g2, g3, g4, g5, g6⟩ :=
        resize_push_loop_spec count v (count - c.m_size + 1)
          (allocate c (c.m_size + count)).state a2 (by rw [a3]; omega) (by rw [a3]; omega)
          (by omega)
      simp only [a1]
      refine ⟨g1, g2, g3, le_trans a5 g4, ?_, ?_, ?_⟩
      · intro j hj _
        rw [g5 j (by rw [a3]; exact hj), a6 j hj]
      · intro j hj1 hj2
        exact g6 j (by rw [a3]; exact hj1) hj2
      · intro j hj1 hj2; omega
    · rw [if_neg h2]
      have heq : c.m_size = count := by omega
      refine ⟨rfl, hwf, heq, le_refl _, ?_, ?_, ?_⟩
      · intro j _ _; rfl
      · intro j hj1 hj2; omega
      · intro j hj1 hj2; omega

theorem clear_spec [Inhabited T] (c : unordered_vector T) (hwf : well_formed c) :
    well_formed (clear c) ∧
    (clear c).m_size = 0 ∧
    (clear c).m_capacity = c.m_capacity ∧
    (∀ j, j < c.m_size → subscript (clear c) j = some default) ∧
    (∀ j, c.m_size ≤ j → subscript (clear c) j = subscript c j) := by
  have hlen : buffer_length c.m_data = c.m_capacity := hwf.2.1
  have hle := hwf.1
  refine ⟨⟨Nat.zero_le _, ?_, hwf.2.2⟩, rfl, rfl, ?_, ?_⟩
  · show buffer_length (clear c).m_data = c.m_capacity
    simp only [clear, buffer_length_assign_each]
    exact hlen
  · intro j hj
    simp only [clear, subscript]
    rw [load_assign_each, if_pos ⟨hj, by omega⟩]
  · intro j hj
    simp only [clear, subscript]
    rw [load_assign_each, if_neg (by omega)]

theorem shrink_to_fit_spec (c : unordered_vector T) (hwf : well_formed c) :
    well_formed (shrink_to_fit c) ∧
    (shrink_to_fit c).m_size = c.m_size ∧
    (shrink_to_fit c).m_capacity = c.m_size ∧
    (∀ j, j < c.m_size → subscript (shrink_to_fit c) j = subscript c j) ∧
    (c.m_size = 0 → (shrink_to_fit c).m_data = none) := by
  have hcap : c.m_size < SIZE_MOD := lt_of_le_of_lt hwf.1 hwf.2.2
  unfold shrink_to_fit
  by_cases h0 : c.m_size = 0
  · rw [if_pos h0]
    refine ⟨⟨by show c.m_size ≤ 0; omega, rfl, by rw [SIZE_MOD_eq]; norm_num⟩, rfl, h0.symm, ?_, ?_⟩
    · intro j hj; omega
    · intro _; rfl
  · rw [if_neg h0]
    refine ⟨⟨le_refl _, ?_, hcap⟩, rfl, rfl, ?_, ?_⟩
    · simp [std_copy, allocator_allocate, foldl_set_length]
    · intro j hj
      have h := foldl_set_getD c.m_data c.m_size (List.replicate c.m_size none) j
      rw [if_pos ⟨hj, by simpa using hj⟩] at h
      simpa [subscript, load, std_copy, allocator_allocate] using h
    · intro h; omega

theorem construct_fill_spec (n : Nat) (v : T) (hn : n ≤ 2 ^ 63) :
    (construct_fill n v).result = .value () ∧
    well_formed (construct_fill n v).state ∧
    (construct_fill n v).state.m_size = n ∧
    (∀ j, j < n → subscript (construct_fill n v).state j = some v) ∧
    (1 ≤ n → smallest_pow2_ge (construct_fill n v).state.m_capacity n) ∧
    (n = 0 → (construct_fill n v).state.m_capacity = 0 ∧
      (construct_fill n v).state.m_data = none) := by
  obtain ⟨a1, a2, a3, a4, _, _, a7, a8⟩ :=
    allocate_spec ({ m_data := none, m_size := n, m_capacity := 0 } : unordered_vector T) n
      rfl (by rw [SIZE_MOD_eq]; norm_num) hn (Or.inl (le_refl _))
  have hlen : buffer_length
      (allocate ({ m_data := none, m_size := n, m_capacity := 0 } : unordered_vector T) n).state.m_data
      = (allocate ({ m_data := none, m_size := n, m_capacity := 0 }
          : unordered_vector T) n).state.m_capacity := a2.2.1
  simp only [construct_fill, a1]
  refine ⟨trivial, ⟨a2.1, ?_, a2.2.2⟩, a3, ?_, ?_, ?_⟩
  · show buffer_length (assign_each _ _ _) = _
    rw [buffer_length_assign_each]
    exact hlen
  · intro j hj
    simp only [subscript]
    rw [load_assign_each, if_pos ⟨by rw [a3]; exact hj, by rw [hlen]; omega⟩]
  · intro h1
    exact (a8 (by show 0 < n; omega)).1
  · intro h0
    have hst := a7 (by show n ≤ 0; omega)
    constructor
    · show (allocate _ _).state.m_capacity = 0
      rw [hst]
    · show assign_each (allocate _ _).state.m_data (allocate _ _).state.m_size _ = none
      rw [hst, h0]
      rfl

theorem construct_copy_spec (other : unordered_vector T) (hwf : well_formed other) :
    well_formed (construct_copy other) ∧
    (construct_copy other).m_size = other.m_size ∧
    (construct_copy other).m_capacity = other.m_capacity ∧
    (∀ j, j < other.m_size → subscript (construct_copy other) j = subscript other j) := by
  have hle := hwf.1
  refine ⟨⟨hwf.1, ?_, hwf.2.2⟩, rfl, rfl, ?_⟩
  · simp [construct_copy, std_copy, allocator_allocate, foldl_set_length]
  · intro j hj
    have h := foldl_set_getD other.m_data other.m_size
      (List.replicate other.m_capacity none) j
    rw [if_pos ⟨hj, by simp; omega⟩] at h
    simpa [construct_copy, subscript, load, std_copy, allocator_allocate] using h

theorem erase_range_loop_vacated [Inhabited T] (f : Nat) :
    ∀ (n : Nat) (c : unordered_vector T) (itr idx : Int),
      itr = (f : Int) + (n : Int) - 1 → well_formed c → f + n ≤ c.m_size →
      (∀ j, c.m_size - n ≤ j → j < c.m_size →
        subscript (erase_range_loop (n + 1) c itr ((f : Int) - 1) idx).state j
          = some default) ∧
      (∀ j, c.m_size ≤ j →
        subscript (erase_range_loop (n + 1) c itr ((f : Int) - 1) idx).state j
          = subscript c j) := by
  intro n
  induction n with
  | zero =>
    intro c itr idx hitr _ _
    have hstop : itr = (f : Int) - 1 := by omega
    subst hstop
    simp only [erase_range_loop, ne_eq, not_true_eq_false, if_false]
    exact ⟨by intro j h1 h2; omega, by intro j _; trivial⟩
  | succ n ih =>
    intro c itr idx hitr hwf hle
    have hne : itr ≠ (f : Int) - 1 := by omega
    have hnat : itr = ((f + n : Nat) : Int) := by omega
    have hstep : pop_back { c with m_data := store_at c.m_data itr (back c) }
        = (erase c (f + n)).1 := by
      rw [hnat]
      have h0 : (0 : Int) ≤ ((f + n : Nat) : Int) := Int.ofNat_nonneg _
      simp only [store_at, erase, if_pos h0, Int.toNat_ofNat]
    obtain ⟨hwf1, hsz1, _, _, hother, hdef⟩ := erase_spec c (f + n) hwf (by omega)
    rw [erase_range_loop, if_pos hne]
    simp only [hstep]
    obtain ⟨g1, g2⟩ := ih (erase c (f + n)).1 (itr - 1) itr (by omega) hwf1 (by omega)
    rw [hsz1] at g1 g2
    constructor
    · intro j hj1 hj2
      by_cases hlast : j = c.m_size - 1
      · rw [g2 j (by omega), hlast, hdef]
      · exact g1 j (by omega) (by omega)
    · intro j hj
      rw [g2 j (by omega), hother j (by omega) (by omega)]

theorem construct_fill_policy (n : Nat) (v : T) :
    pow2_or_zero (construct_fill n v).state.m_capacity ∧
    ∀ e, (construct_fill n v).result ≠ .thrown e := by
  have h := steady_allocate ({ m_data := none, m_size := n, m_capacity := 0 }
    : unordered_vector T) n
  have hp := grown_by_policy_pow2 h.1 (Or.inl rfl)
  unfold construct_fill
  dsimp only
  cases hres : (allocate ({ m_data := none, m_size := n, m_capacity := 0 }
      : unordered_vector T) n).result with
  | value u => exact ⟨hp, by intro e he; cases he⟩
  | thrown e => exact absurd hres (h.2 e)
  | diverged => exact ⟨hp, by intro e he; cases he⟩

theorem construct_count_policy (n : Nat) :
    pow2_or_zero (construct_count n : Outcome T Unit).state.m_capacity ∧
    ∀ e, (construct_count n : Outcome T Unit).result ≠ .thrown e := by
  have h := steady_allocate ({ m_data := none, m_size := n, m_capacity := 0 }
    : unordered_vector T) n
  exact ⟨grown_by_policy_pow2 h.1 (Or.inl rfl), h.2⟩

theorem construct_list_policy (init : List T) :
    pow2_or_zero (construct_list init).state.m_capacity ∧
    ∀ e, (construct_list init).result ≠ .thrown e := by
  have h := steady_allocate ({ m_data := none, m_size := init.length, m_capacity := 0 }
    : unordered_vector T) init.length
  have hp := grown_by_policy_pow2 h.1 (Or.inl rfl)
  unfold construct_list
  dsimp only
  cases hres : (allocate ({ m_data := none, m_size := init.length, m_capacity := 0 }
      : unordered_vector T) init.length).result with
  | value u => exact ⟨hp, by intro e he; cases he⟩
  | thrown e => exact absurd hres (h.2 e)
  | diverged => exact ⟨hp, by intro e he; cases he⟩

theorem construct_range_policy (values : List T) :
    pow2_or_zero (construct_range values).state.m_capacity ∧
    ∀ e, (construct_range values).result ≠ .thrown e := by
  have h := steady_allocate ({ m_data := none, m_size := count_range values, m_capacity := 0 }
    : unordered_vector T) (count_range values)
  have hp := grown_by_policy_pow2 h.1 (Or.inl rfl)
  unfold construct_range
  dsimp only
  cases hres : (allocate ({ m_data := none, m_size := count_range values, m_capacity := 0 }
      : unordered_vector T) (count_range values)).result with
  | value u => exact ⟨hp, by intro e he; cases he⟩
  | thrown e => exact absurd hres (h.2 e)
  | diverged => exact ⟨hp, by intro e he; cases he⟩

theorem erase_range_capacity [Inhabited T] (c : unordered_vector T) (first last : Nat) :
    (erase_range c first last).state.m_capacity = c.m_capacity :=
  (erase_range_loop_capacity _ _ c _ _).1

theorem not_pow2_or_zero_three : ¬ pow2_or_zero 3 := by
  rintro (h | ⟨k, hk⟩)
  · omega
  · cases k with
    | zero => simp at hk
    | succ k =>
      rw [pow_succ] at hk
      omega

theorem std_copy_reads_spec (src : Option (Buffer T)) (n : Nat) (dst : Buffer T) :
    std_copy src n dst
      = { dst with cells :=
            (std_copy_reads n).foldl (fun cs i => cs.set i (load src i)) dst.cells } :=
  rfl

theorem push_back_reads_spare (c : unordered_vector T) (hlt : c.m_size < c.m_capacity)
    (hcap : c.m_capacity < SIZE_MOD) : push_back_reads c = [] := by
  have h1 : size_add c.m_size 1 = c.m_size + 1 := size_add_one_lt (by omega)
  have h3 : ¬ c.m_size + 1 > c.m_capacity := by omega
  simp [push_back_reads, h1, h3]

theorem push_back_reads_full (c : unordered_vector T) (hwf : well_formed c)
    (hfull : c.m_size = c.m_capacity) (hpos : 0 < c.m_capacity) (hs : c.m_size < 2 ^ 63) :
    push_back_reads c = List.range (c.m_capacity + 1) := by
  obtain ⟨b, hb, _⟩ := well_formed_data hwf hpos
  have hmod : c.m_size + 1 < SIZE_MOD := by rw [SIZE_MOD_eq]; omega
  have h1 : size_add c.m_size 1 = c.m_size + 1 := size_add_one_lt hmod
  have h3 : c.m_size + 1 > c.m_capacity := by omega
  obtain ⟨p, hloop, hp, _⟩ := allocate_loop_spec (c.m_size + 1) (by omega)
  have h4 : p > c.m_capacity := by have := hp.2.1; omega
  simp only [push_back_reads, allocate_reads, reserve_reads, std_copy_reads, h1, h3, hloop, h4,
    hb, if_true]
  rw [hfull]

theorem assign_count_size [Inhabited T] (c : unordered_vector T) (count : Nat) (value : T) :
    (assign_count c count value).state.m_size = 0 := by
  unfold assign_count
  dsimp only
  rw [allocate_if_eq]
  have h := (allocate_policy (clear c) count).2.2
  cases hres : (allocate (clear c) count).result with
  | value u => exact h
  | thrown e => exact h
  | diverged => exact h

theorem live_of_size_zero (c : unordered_vector T) (h : c.m_size = 0) : live c = [] := by
  simp [live, h]

theorem subscript_of_live (c : unordered_vector T) (vals : List T)
    (hlive : live c = vals.map some) :
    c.m_size = vals.length ∧
    ∀ k (hk : k < vals.length), subscript c k = some vals[k] := by
  have hlen : c.m_size = vals.length := by
    have h := congrArg List.length hlive
    rw [live_length, List.length_map] at h
    exact h
  refine ⟨hlen, ?_⟩
  intro k hk
  have hget : (live c)[k]? = (vals.map some)[k]? := by rw [hlive]
  rw [live_getElem?, if_pos (by omega), List.getElem?_map, List.getElem?_eq_getElem hk] at hget
  simpa using hget

theorem assign_range_spec [Inhabited T] (c : unordered_vector T) (values : List T)
    (hwf : well_formed c) (hn : values.length ≤ 2 ^ 63) :
    (assign_range c values).result = .value () ∧
    well_formed (assign_range c values).state ∧
    (assign_range c values).state.m_size = values.length ∧
    (∀ k (hk : k < values.length), subscript (assign_range c values).state k = some values[k]) := by
  obtain ⟨c1, c2, _, _, _⟩ := clear_spec c hwf
  obtain ⟨g1, g2, _, g4⟩ := push_back_all_spec values (clear c) c1 (by rw [c2]; omega)
  rw [live_of_size_zero (clear c) c2, List.nil_append] at g4
  obtain ⟨s1, s2⟩ := subscript_of_live _ values g4
  exact ⟨g1, g2, s1, s2⟩

theorem assign_list_spec [Inhabited T] (c : unordered_vector T) (ilist : List T)
    (hwf : well_formed c) (hn : ilist.length ≤ 2 ^ 63) :
    (assign_list c ilist).result = .value () ∧
    well_formed (assign_list c ilist).state ∧
    (assign_list c ilist).state.m_size = ilist.length ∧
    (∀ k (hk : k < ilist.length), subscript (assign_list c ilist).state k = some ilist[k]) := by
  obtain ⟨c1, c2, _, _, _⟩ := clear_spec c hwf
  obtain ⟨a1, a2, a3, _⟩ :=
    allocate_spec (clear c) ilist.length c1.2.1 c1.2.2 hn (Or.inl (by rw [c2]; omega))
  obtain ⟨g1, g2, _, g4⟩ := push_back_all_spec ilist (allocate (clear c) ilist.length).state a2
    (by rw [a3, c2]; omega)
  rw [live_of_size_zero (allocate (clear c) ilist.length).state (by rw [a3, c2]),
    List.nil_append] at g4
  obtain ⟨s1, s2⟩ := subscript_of_live _ ilist g4
  have hrun : assign_list c ilist = push_back_all (allocate (clear c) ilist.length).state ilist := by
    unfold assign_list
    dsimp only
    rw [allocate_if_eq]
    simp only [a1]
  rw [hrun]
  exact ⟨g1, g2, s1, s2⟩

end lemmas

section claims

variable {T : Type}

/-- C1: on a well-formed container of size N with i < N, `erase(begin() + i)`
leaves size N-1; when i < N-1 the slot i holds what slot N-1 held before; every
slot other than i and N-1 is unchanged; the returned iterator is `begin() + i`. -/
theorem C1_erase_position [Inhabited T] (c : unordered_vector T) (i : Nat)
    (hwf : well_formed c) (hi : i < c.m_size) :
    size (erase c i).1 = size c - 1 ∧
    (i < size c - 1 → subscript (erase c i).1 i = subscript c (size c - 1)) ∧
    (∀ j, j ≠ i → j ≠ size c - 1 → subscript (erase c i).1 j = subscript c j) ∧
    (erase c i).2 = i := by
  have hcap : c.m_size < SIZE_MOD := lt_of_le_of_lt hwf.1 hwf.2.2
  have hdec : size_dec c.m_size = c.m_size - 1 := size_dec_pos (by omega) hcap
  obtain ⟨b, hb, hlen⟩ := well_formed_data hwf (by have := hwf.1; omega)
  have hle := hwf.1
  refine ⟨?_, ?_, ?_, rfl⟩
  · simp [size, erase, pop_back, hdec]
  · intro hlt
    simp only [size] at hlt
    simp only [size, erase, pop_back, subscript, back, hdec]
    rw [load_store_ne _ _ (by omega), hb, load_store_eq _ _ (by omega)]
  · intro j hji hjn
    simp only [size] at hjn
    simp only [size, erase, pop_back, subscript, back, hdec]
    rw [load_store_ne _ _ (by omega), load_store_ne _ _ (by omega)]

/-- C1 at the container 1,2,3 (capacity 4), erasing position 0. -/
theorem C1_erase_position_witness :
    well_formed (⟨some ⟨0, [some 1, some 2, some 3, none]⟩, 3, 4⟩ : unordered_vector Nat) ∧
    size (erase (⟨some ⟨0, [some 1, some 2, some 3, none]⟩, 3, 4⟩ : unordered_vector Nat) 0).1 = 2 ∧
    subscript (erase (⟨some ⟨0, [some 1, some 2, some 3, none]⟩, 3, 4⟩ : unordered_vector Nat) 0).1 0
      = some 3 :=
  ⟨by decide,
   (C1_erase_position (⟨some ⟨0, [some 1, some 2, some 3, none]⟩, 3, 4⟩ : unordered_vector Nat) 0
      (by decide) (by decide)).1,
   by decide⟩

/-- C5: `reserve(n)` throws `std::length_error` exactly when n <= capacity, and
then the container (size, capacity, buffer) is the one it was before the call. -/
theorem C5_reserve_length_error (c : unordered_vector T) (n : Nat) :
    ((∃ what, (reserve c n).result = .thrown (.length_error what)) ↔ n ≤ c.m_capacity) ∧
    (n ≤ c.m_capacity →
      (reserve c n).result = .thrown (.length_error "New capacity inferior to current capacity") ∧
      (reserve c n).state = c) := by
  by_cases h : n > c.m_capacity
  · have hn : ¬ n ≤ c.m_capacity := by omega
    simp [reserve, h, hn]
  · have hn : n ≤ c.m_capacity := by omega
    simp [reserve, h, hn]

/-- C5 at `reserve(0)` on the empty container and `reserve(4)` at capacity 4. -/
theorem C5_reserve_length_error_witness :
    (reserve (empty_vector : unordered_vector Nat) 0).result
        = .thrown (.length_error "New capacity inferior to current capacity") ∧
    (reserve (empty_vector : unordered_vector Nat) 0).state = empty_vector ∧
    (reserve (⟨some ⟨0, [some 1, some 2, some 3, none]⟩, 3, 4⟩ : unordered_vector Nat) 4).state
        = ⟨some ⟨0, [some 1, some 2, some 3, none]⟩, 3, 4⟩ :=
  ⟨((C5_reserve_length_error (empty_vector : unordered_vector Nat) 0).2 (by decide)).1,
   ((C5_reserve_length_error (empty_vector : unordered_vector Nat) 0).2 (by decide)).2,
   by decide⟩

/-- C6: `at(i)` returns the slot at index i when i < size and otherwise throws
`std::out_of_range` with a message that spells out i and the size; either way
the container is the one it was before the call. -/
theorem C6_at_checked (c : unordered_vector T) (i : Nat) :
    (i < size c → (at_ c i).result = .value (subscript c i)) ∧
    (size c ≤ i → (at_ c i).result = .thrown (.out_of_range
        ("pos (which is " ++ toString i ++ ") >= this->size() (which is "
          ++ toString (size c) ++ ")"))) ∧
    (at_ c i).state = c := by
  by_cases h : i < c.m_size
  · have hn : ¬ c.m_size ≤ i := by omega
    simp [at_, size, subscript, h, hn]
  · have hn : c.m_size ≤ i := by omega
    simp [at_, size, h, hn]

/-- C6 on the empty container at index 0 and on 1,2,3 at index 1 and 3. -/
theorem C6_at_checked_witness :
    (at_ (empty_vector : unordered_vector Nat) 0).result
        = .thrown (.out_of_range "pos (which is 0) >= this->size() (which is 0)") ∧
    (at_ (⟨some ⟨0, [some 1, some 2, some 3, none]⟩, 3, 4⟩ : unordered_vector Nat) 1).result
        = .value (some 2) ∧
    (at_ (⟨some ⟨0, [some 1, some 2, some 3, none]⟩, 3, 4⟩ : unordered_vector Nat) 3).result
        = .thrown (.out_of_range "pos (which is 3) >= this->size() (which is 3)") :=
  ⟨(C6_at_checked (empty_vector : unordered_vector Nat) 0).2.1 (by decide),
   (C6_at_checked (⟨some ⟨0, [some 1, some 2, some 3, none]⟩, 3, 4⟩ : unordered_vector Nat) 1).1
     (by decide),
   by decide⟩

/-- C3: pushing the values v1..vn in turn onto the empty container (n within
the range where the doubling of `allocate` does not wrap) returns every time,
leaves size n and the value v(k+1) at each index k < n, so the live elements are
exactly the pushed values, in the order pushed, and equal to them as a multiset. -/
theorem C3_push_back_sequence (vs : List T) (hlen : vs.length ≤ 2 ^ 63) :
    (push_back_all (empty_vector : unordered_vector T) vs).result = .value () ∧
    size (push_back_all (empty_vector : unordered_vector T) vs).state = vs.length ∧
    (∀ k (hk : k < vs.length),
      subscript (push_back_all (empty_vector : unordered_vector T) vs).state k = some vs[k]) ∧
    live (push_back_all (empty_vector : unordered_vector T) vs).state = vs.map some ∧
    Multiset.ofList (live (push_back_all (empty_vector : unordered_vector T) vs).state)
      = Multiset.ofList (vs.map some) := by
  have hwf : well_formed (empty_vector : unordered_vector T) := by
    simp [well_formed, empty_vector, SIZE_MOD]
  obtain ⟨h1, _, h3, h4⟩ := push_back_all_spec vs (empty_vector : unordered_vector T) hwf
    (by simpa [empty_vector] using hlen)
  have hlive : live (push_back_all (empty_vector : unordered_vector T) vs).state = vs.map some := by
    rw [h4]; simp [live, empty_vector]
  refine ⟨h1, by simpa [size, empty_vector] using h3, ?_, hlive, by rw [hlive]⟩
  intro k hk
  have hsz : (push_back_all (empty_vector : unordered_vector T) vs).state.m_size = vs.length := by
    simpa [empty_vector] using h3
  have hget : (live (push_back_all (empty_vector : unordered_vector T) vs).state)[k]?
      = (vs.map some)[k]? := by rw [hlive]
  simp only [live, List.getElem?_map, List.getElem?_range (hsz ▸ hk), Option.map_some] at hget
  rw [List.getElem?_eq_getElem hk] at hget
  simpa using hget

/-- C3 at the values 1,2,3,4: size 4 and the elements 1,2,3,4 in that order. -/
theorem C3_push_back_sequence_witness :
    [1, 2, 3, 4].length ≤ 2 ^ 63 ∧
    size (push_back_all (empty_vector : unordered_vector Nat) [1, 2, 3, 4]).state = 4 ∧
    live (push_back_all (empty_vector : unordered_vector Nat) [1, 2, 3, 4]).state
      = [some 1, some 2, some 3, some 4] :=
  ⟨by norm_num,
   (C3_push_back_sequence [1, 2, 3, 4] (by norm_num)).2.1,
   (C3_push_back_sequence [1, 2, 3, 4] (by norm_num)).2.2.2.1⟩

/-- C8: on a well-formed container of size N and a range with f <= l <= N,
`erase(begin() + f, begin() + l)` returns, leaves size N - (l - f), leaves every
slot below f unchanged, and the live elements together with the elements that
were at indices f..l-1 are, as a multiset, exactly the original live elements. -/
theorem C8_erase_range_multiset [Inhabited T] (c : unordered_vector T) (f l : Nat)
    (hwf : well_formed c) (hfl : f ≤ l) (hl : l ≤ c.m_size) :
    (∃ idx, (erase_range c f l).result = .value idx) ∧
    size (erase_range c f l).state = size c - (l - f) ∧
    (∀ j, j < f → subscript (erase_range c f l).state j = subscript c j) ∧
    Multiset.ofList (live (erase_range c f l).state)
        + Multiset.ofList (((live c).drop f).take (l - f))
      = Multiset.ofList (live c) := by
  obtain ⟨h1, _, h3, _, h5, h6⟩ :=
    erase_range_loop_spec f (l - f) c ((l : Int) - 1) 0 (by omega) hwf (by omega)
  refine ⟨⟨_, h1⟩, h3, h5, ?_⟩
  rw [Multiset.coe_add, Multiset.coe_eq_coe]
  exact h6

/-- C8 on 1,2,3,4,5 with the range [1, 4): the erased run (three elements) is
longer than the tail after it (one element). -/
theorem C8_erase_range_multiset_witness :
    well_formed (⟨some ⟨0, [some 1, some 2, some 3, some 4, some 5, none, none, none]⟩, 5, 8⟩
      : unordered_vector Nat) ∧
    size (erase_range (⟨some ⟨0, [some 1, some 2, some 3, some 4, some 5, none, none, none]⟩, 5, 8⟩
      : unordered_vector Nat) 1 4).state = 2 ∧
    live (erase_range (⟨some ⟨0, [some 1, some 2, some 3, some 4, some 5, none, none, none]⟩, 5, 8⟩
      : unordered_vector Nat) 1 4).state = [some 1, some 5] :=
  ⟨by decide,
   (C8_erase_range_multiset
      (⟨some ⟨0, [some 1, some 2, some 3, some 4, some 5, none, none, none]⟩, 5, 8⟩
        : unordered_vector Nat) 1 4 (by decide) (by decide) (by decide)).2.1,
   by decide⟩

/-- C9 (failing input): on 1,2,3 the empty range [1, 1) erases nothing and
`erase(first, last)` returns `begin() + 0`, not `begin() + 1`. -/
theorem C9_erase_empty_range_returns_begin :
    (erase_range (⟨some ⟨0, [some 1, some 2, some 3, none]⟩, 3, 4⟩ : unordered_vector Nat) 1 1)
      = ⟨⟨some ⟨0, [some 1, some 2, some 3, none]⟩, 3, 4⟩, .value 0⟩ := by
  decide

/-- C10: on a well-formed container whose live slots hold the values `vals`,
`std::erase_if(c, pred)` returns the number of values that satisfy `pred` and
leaves as live sequence the values that do not, in their original order;
`std::erase(c, value)` does the same for the test `== value`, so no live
element equals `value` afterward. -/
theorem C10_erase_if_and_erase_value [Inhabited T] [DecidableEq T] (c : unordered_vector T)
    (vals : List T) (hwf : well_formed c) (hlive : live c = vals.map some) :
    (∀ pred : T → Bool, ∃ c1,
      std_erase_if c pred = some ⟨c1, .value (vals.countP pred)⟩ ∧
      live c1 = (vals.filter (fun v => !pred v)).map some ∧
      size c1 = size c - vals.countP pred) ∧
    (∀ value : T, ∃ c1,
      std_erase c value = some ⟨c1, .value (vals.count value)⟩ ∧
      live c1 = (vals.filter (fun v => !decide (v = value))).map some ∧
      size c1 = size c - vals.count value ∧
      some value ∉ live c1) := by
  constructor
  · intro pred
    obtain ⟨c1, h1, _, h3, h4, _⟩ := std_erase_if_spec c pred vals hwf hlive
    exact ⟨c1, h1, h3, h4⟩
  · intro value
    obtain ⟨c1, h1, _, h3, h4, _⟩ :=
      std_erase_if_spec c (fun v => decide (v = value)) vals hwf hlive
    have hcount : vals.countP (fun v => decide (v = value)) = vals.count value := by
      rw [List.count_eq_countP]
      rfl
    rw [hcount] at h1 h4
    refine ⟨c1, h1, h3, h4, ?_⟩
    rw [h3]
    intro hmem
    obtain ⟨w, hw, hwv⟩ := List.mem_map.1 hmem
    have hwval : w = value := Option.some.inj hwv
    have hkeep := (List.mem_filter.1 hw).2
    simp [hwval] at hkeep

/-- C10 on 1,2,3,4,5: erasing the even values returns 2 and leaves 1,3,5. -/
theorem C10_erase_if_and_erase_value_witness :
    well_formed (⟨some ⟨0, [some 1, some 2, some 3, some 4, some 5, none, none, none]⟩, 5, 8⟩
      : unordered_vector Nat) ∧
    ∃ c1, std_erase_if (⟨some ⟨0, [some 1, some 2, some 3, some 4, some 5, none, none, none]⟩, 5, 8⟩
        : unordered_vector Nat) (fun v => v % 2 == 0) = some ⟨c1, .value 2⟩ ∧
      live c1 = [some 1, some 3, some 5] ∧ size c1 = 3 :=
  ⟨by decide,
   (C10_erase_if_and_erase_value
      (⟨some ⟨0, [some 1, some 2, some 3, some 4, some 5, none, none, none]⟩, 5, 8⟩
        : unordered_vector Nat) [1, 2, 3, 4, 5] (by decide) (by decide)).1 (fun v => v % 2 == 0)⟩

/-- C2 (failing input): the container holding 1 at size 1, capacity 1 is what
`push_back(1)` leaves of the empty container. `insert(begin(), 9)` reallocates:
`push_back` reads its argument, a reference into the buffer that `reserve` has
deallocated, so the new last slot (index 1) holds an indeterminate value and not
the displaced 1. -/
theorem C2_insert_full_loses_displaced :
    (push_back (empty_vector : unordered_vector Nat) (.object 1)).state
      = ⟨some ⟨0, [some 1]⟩, 1, 1⟩ ∧
    insert (⟨some ⟨0, [some 1]⟩, 1, 1⟩ : unordered_vector Nat) 0 9
      = ⟨⟨some ⟨1, [some 9, none]⟩, 2, 2⟩, .value 0⟩ ∧
    subscript (insert (⟨some ⟨0, [some 1]⟩, 1, 1⟩ : unordered_vector Nat) 0 9).state 1
      ≠ subscript (⟨some ⟨0, [some 1]⟩, 1, 1⟩ : unordered_vector Nat) 0 := by
  decide

/-- C4 (failing input): after `push_back` of 1, 2, 3 the capacity is 4; then
`resize(4)`, a count the capacity already holds, requests `allocate(3 + 4)` and
leaves capacity 8. -/
theorem C4_resize_overallocates :
    (push_back_all (empty_vector : unordered_vector Nat) [1, 2, 3]).state
      = ⟨some ⟨2, [some 1, some 2, some 3, none]⟩, 3, 4⟩ ∧
    (resize (⟨some ⟨2, [some 1, some 2, some 3, none]⟩, 3, 4⟩ : unordered_vector Nat) 4).result
      = .value () ∧
    size (resize (⟨some ⟨2, [some 1, some 2, some 3, none]⟩, 3, 4⟩ : unordered_vector Nat) 4).state
      = 4 ∧
    capacity (resize (⟨some ⟨2, [some 1, some 2, some 3, none]⟩, 3, 4⟩ : unordered_vector Nat) 4).state
      = 8 := by
  decide

/-- C7 (failing input): on the container holding 1 at size 1, capacity 1,
`insert(begin(), 9)` followed by `erase(begin())` leaves size 1 with an
indeterminate value in slot 0: the live elements are no longer the multiset
holding 1. -/
theorem C7_insert_erase_full_loses_element :
    (erase (insert (⟨some ⟨0, [some 1]⟩, 1, 1⟩ : unordered_vector Nat) 0 9).state 0).1
      = ⟨some ⟨1, [none, some 0]⟩, 1, 2⟩ ∧
    live (erase (insert (⟨some ⟨0, [some 1]⟩, 1, 1⟩ : unordered_vector Nat) 0 9).state 0).1
      = [none] ∧
    Multiset.ofList
        (live (erase (insert (⟨some ⟨0, [some 1]⟩, 1, 1⟩ : unordered_vector Nat) 0 9).state 0).1)
      ≠ Multiset.ofList (live (⟨some ⟨0, [some 1]⟩, 1, 1⟩ : unordered_vector Nat)) := by
  refine ⟨by decide, by decide, ?_⟩
  rw [show live (erase (insert (⟨some ⟨0, [some 1]⟩, 1, 1⟩ : unordered_vector Nat) 0 9).state 0).1
      = [none] by decide,
    show live (⟨some ⟨0, [some 1]⟩, 1, 1⟩ : unordered_vector Nat) = [some 1] by decide]
  intro h
  have h2 := Multiset.coe_eq_coe.1 h
  have h3 := List.Perm.mem_iff h2 (a := none)
  simp at h3

/-- C11 (failing input): on the container holding 1 at size 1, capacity 1, the
iterator-range insert of the one value 9 at `begin()` acquires no capacity
before its loop, so its `push_back` reallocates and reads the displaced element
from the deallocated buffer: slot 1 is indeterminate. The count and
initializer-list inserts of the same value call `allocate` first and leave the
displaced 1 in slot 1. -/
theorem C11_insert_range_full_loses_displaced :
    insert_range (⟨some ⟨0, [some 1]⟩, 1, 1⟩ : unordered_vector Nat) 0 [9]
      = ⟨⟨some ⟨1, [some 9, none]⟩, 2, 2⟩, .value 0⟩ ∧
    insert_list (⟨some ⟨0, [some 1]⟩, 1, 1⟩ : unordered_vector Nat) 0 [9]
      = ⟨⟨some ⟨1, [some 9, some 1]⟩, 2, 2⟩, .value 0⟩ ∧
    insert_count (⟨some ⟨0, [some 1]⟩, 1, 1⟩ : unordered_vector Nat) 0 1 9
      = ⟨⟨some ⟨1, [some 9, some 1]⟩, 2, 2⟩, .value 0⟩ := by
  decide

/-- C12: for a count n within the range where the doubling of `allocate` does
not wrap, the fill constructor returns with size n and every slot below n equal
to the value; for n >= 1 the capacity is the smallest power of two >= n, and
for n = 0 the capacity is 0 and there is no buffer. -/
theorem C12_fill_constructor (n : Nat) (v : T) (hn : n ≤ 2 ^ 63) :
    (construct_fill n v).result = .value () ∧
    size (construct_fill n v).state = n ∧
    (∀ j, j < n → subscript (construct_fill n v).state j = some v) ∧
    (1 ≤ n → smallest_pow2_ge (capacity (construct_fill n v).state) n) ∧
    (n = 0 → capacity (construct_fill n v).state = 0 ∧
      (construct_fill n v).state.m_data = none) := by
  obtain ⟨h1, _, h3, h4, h5, h6⟩ := construct_fill_spec n v hn
  exact ⟨h1, h3, h4, h5, h6⟩

/-- C12 at count 5, value 7: size 5, capacity 8, five elements equal to 7. -/
theorem C12_fill_constructor_witness :
    5 ≤ 2 ^ 63 ∧
    size (construct_fill 5 7 : Outcome Nat Unit).state = 5 ∧
    smallest_pow2_ge (capacity (construct_fill 5 7 : Outcome Nat Unit).state) 5 ∧
    capacity (construct_fill 5 7 : Outcome Nat Unit).state = 8 ∧
    live (construct_fill 5 7 : Outcome Nat Unit).state
      = [some 7, some 7, some 7, some 7, some 7] :=
  ⟨by norm_num,
   (C12_fill_constructor 5 7 (by norm_num)).2.1,
   (C12_fill_constructor 5 7 (by norm_num)).2.2.2.1 (by norm_num),
   by decide, by decide⟩

/-- C13: on a well-formed container of size N, `resize(count, value)` (with
N + count in the range where `allocate` terminates when it grows) returns with
size count; every slot below min(N, count) is unchanged; when count > N every
slot in [N, count) holds the value. The one-argument `resize(count)` does the
same with the default value. -/
theorem C13_resize [Inhabited T] (c : unordered_vector T) (count : Nat) (v : T)
    (hwf : well_formed c) (hs : count ≤ c.m_size ∨ c.m_size + count ≤ 2 ^ 63) :
    ((resize_value c count (.object v)).result = .value () ∧
      size (resize_value c count (.object v)).state = count ∧
      (∀ j, j < size c → j < count →
        subscript (resize_value c count (.object v)).state j = subscript c j) ∧
      (∀ j, size c ≤ j → j < count →
        subscript (resize_value c count (.object v)).state j = some v)) ∧
    ((resize c count).result = .value () ∧
      size (resize c count).state = count ∧
      (∀ j, j < size c → j < count → subscript (resize c count).state j = subscript c j) ∧
      (∀ j, size c ≤ j → j < count → subscript (resize c count).state j = some default)) := by
  obtain ⟨h1, _, h3, _, h5, h6, _⟩ := resize_value_spec c count v hwf hs
  obtain ⟨g1, _, g3, _, g5, g6, _⟩ := resize_value_spec c count (default : T) hwf hs
  exact ⟨⟨h1, h3, h5, h6⟩, ⟨g1, g3, g5, g6⟩⟩

/-- C13 on 1,2,3,4,5 (capacity 8): `resize(2, 9)` keeps 1,2 and `resize(7, 9)`
appends 9,9. -/
theorem C13_resize_witness :
    well_formed (⟨some ⟨0, [some 1, some 2, some 3, some 4, some 5, none, none, none]⟩, 5, 8⟩
      : unordered_vector Nat) ∧
    size (resize_value (⟨some ⟨0, [some 1, some 2, some 3, some 4, some 5, none, none, none]⟩, 5, 8⟩
      : unordered_vector Nat) 7 (.object 9)).state = 7 ∧
    live (resize_value (⟨some ⟨0, [some 1, some 2, some 3, some 4, some 5, none, none, none]⟩, 5, 8⟩
      : unordered_vector Nat) 7 (.object 9)).state
      = [some 1, some 2, some 3, some 4, some 5, some 9, some 9] ∧
    live (resize_value (⟨some ⟨0, [some 1, some 2, some 3, some 4, some 5, none, none, none]⟩, 5, 8⟩
      : unordered_vector Nat) 2 (.object 9)).state = [some 1, some 2] :=
  ⟨by decide,
   (C13_resize (⟨some ⟨0, [some 1, some 2, some 3, some 4, some 5, none, none, none]⟩, 5, 8⟩
      : unordered_vector Nat) 7 9 (by decide) (Or.inr (by norm_num))).1.2.1,
   by decide, by decide⟩

/-- C14: move construction and move assignment from a container A leave A with
size 0, capacity 0 and no buffer, and give the target the size, the capacity
and the buffer (hence every slot) that A had. -/
theorem C14_move (a target : unordered_vector T) :
    ((construct_move a).2 = ⟨none, 0, 0⟩ ∧
      size (construct_move a).1 = size a ∧
      capacity (construct_move a).1 = capacity a ∧
      (construct_move a).1.m_data = a.m_data ∧
      (∀ j, subscript (construct_move a).1 j = subscript a j)) ∧
    ((move_assign target a).2 = ⟨none, 0, 0⟩ ∧
      size (move_assign target a).1 = size a ∧
      capacity (move_assign target a).1 = capacity a ∧
      (move_assign target a).1.m_data = a.m_data ∧
      (∀ j, subscript (move_assign target a).1 j = subscript a j)) := by
  refine ⟨⟨rfl, rfl, rfl, rfl, ?_⟩, ⟨rfl, rfl, rfl, rfl, ?_⟩⟩
  · intro j; rfl
  · intro j; rfl

/-- C15: on a well-formed container of size N, `shrink_to_fit` leaves size N,
every live slot unchanged and capacity N, and the buffer it holds afterward has
exactly N slots, so the container is well-formed again; when N is 0 there is no
buffer afterward and the capacity is 0. -/
theorem C15_shrink_to_fit (c : unordered_vector T) (hwf : well_formed c) :
    size (shrink_to_fit c) = size c ∧
    (∀ j, j < size c → subscript (shrink_to_fit c) j = subscript c j) ∧
    capacity (shrink_to_fit c) = size c ∧
    buffer_length (shrink_to_fit c).m_data = size c ∧
    well_formed (shrink_to_fit c) ∧
    (size c = 0 → (shrink_to_fit c).m_data = none ∧ capacity (shrink_to_fit c) = 0) := by
  obtain ⟨h1, h2, h3, h4, h5⟩ := shrink_to_fit_spec c hwf
  have hlen : buffer_length (shrink_to_fit c).m_data = (shrink_to_fit c).m_capacity := h1.2.1
  refine ⟨h2, h4, h3, by rw [hlen]; exact h3, h1, ?_⟩
  intro h0
  exact ⟨h5 h0, by simp only [capacity, size] at *; rw [h3, h0]⟩

/-- C15 on 1,2,3 at capacity 8 and on an empty container at capacity 8. -/
theorem C15_shrink_to_fit_witness :
    well_formed (⟨some ⟨0, [some 1, some 2, some 3, none, none, none, none, none]⟩, 3, 8⟩
      : unordered_vector Nat) ∧
    capacity (shrink_to_fit (⟨some ⟨0, [some 1, some 2, some 3, none, none, none, none, none]⟩,
      3, 8⟩ : unordered_vector Nat)) = 3 ∧
    shrink_to_fit (⟨some ⟨0, [some 1, some 2, some 3, none, none, none, none, none]⟩,
      3, 8⟩ : unordered_vector Nat) = ⟨some ⟨1, [some 1, some 2, some 3]⟩, 3, 3⟩ ∧
    live (shrink_to_fit (⟨some ⟨0, [some 1, some 2, some 3, none, none, none, none, none]⟩,
      3, 8⟩ : unordered_vector Nat)) = [some 1, some 2, some 3] ∧
    shrink_to_fit (⟨some ⟨0, [some 0, some 0, none, none, none, none, none, none]⟩, 0, 8⟩
      : unordered_vector Nat) = ⟨none, 0, 0⟩ :=
  ⟨by decide,
   (C15_shrink_to_fit (⟨some ⟨0, [some 1, some 2, some 3, none, none, none, none, none]⟩,
      3, 8⟩ : unordered_vector Nat) (by decide)).2.2.1,
   by decide, by decide, by decide⟩

/-- C16: none of `push_back`, `emplace_back`, `insert` (single, count, range,
initializer list), `resize`, `reserve`, `pop_back`, `erase` (single and range)
and `clear` leaves a capacity below the one before the call, on any container
and for any arguments; `pop_back`, `erase` and `clear` leave it equal. -/
theorem C16_capacity_never_shrinks [Inhabited T] (c : unordered_vector T) :
    (∀ value : ValueRef T, capacity c ≤ capacity (push_back c value).state) ∧
    (∀ value : T, capacity c ≤ capacity (emplace_back c value).state) ∧
    (∀ index value, capacity c ≤ capacity (insert c index value).state) ∧
    (∀ index count value, capacity c ≤ capacity (insert_count c index count value).state) ∧
    (∀ index values, capacity c ≤ capacity (insert_range c index values).state) ∧
    (∀ index ilist, capacity c ≤ capacity (insert_list c index ilist).state) ∧
    (∀ count, capacity c ≤ capacity (resize c count).state) ∧
    (∀ count value, capacity c ≤ capacity (resize_value c count value).state) ∧
    (∀ new_cap, capacity c ≤ capacity (reserve c new_cap).state) ∧
    capacity (pop_back c) = capacity c ∧
    (∀ index, capacity (erase c index).1 = capacity c) ∧
    (∀ first last, capacity (erase_range c first last).state = capacity c) ∧
    capacity (clear c) = capacity c := by
  refine ⟨?_, ?_, ?_, ?_, ?_, ?_, ?_, ?_, ?_, rfl, ?_, ?_, rfl⟩
  · intro value; exact grown_by_policy_le (steady_push_back c value).1
  · intro value; exact grown_by_policy_le (steady_push_back c (.object value)).1
  · intro index value; exact grown_by_policy_le (steady_insert c index value).1
  · intro index count value
    exact grown_by_policy_le (steady_insert_count c index count value).1
  · intro index values; exact grown_by_policy_le (steady_insert_range c index values).1
  · intro index ilist; exact grown_by_policy_le (steady_insert_list c index ilist).1
  · intro count; exact grown_by_policy_le (steady_resize_value c count _).1
  · intro count value; exact grown_by_policy_le (steady_resize_value c count value).1
  · intro new_cap
    simp only [capacity, reserve]
    by_cases h : new_cap > c.m_capacity
    · rw [if_pos h]; exact Nat.le_of_lt h
    · rw [if_neg h]
  · intro index; rfl
  · intro first last; exact erase_range_capacity c first last

/-- C17 (counterexample): `reserve(3)` on a default-constructed container
leaves capacity 3, which is neither 0 nor a power of two. -/
theorem C17_reserve_capacity_three :
    Reachable true (reserve (empty_vector : unordered_vector Nat) 3).state ∧
    capacity (reserve (empty_vector : unordered_vector Nat) 3).state = 3 ∧
    ¬ pow2_or_zero (capacity (reserve (empty_vector : unordered_vector Nat) 3).state) := by
  refine ⟨Reachable.after_reserve 3 rfl Reachable.from_default, by decide, ?_⟩
  rw [show capacity (reserve (empty_vector : unordered_vector Nat) 3).state = 3 by decide]
  exact not_pow2_or_zero_three

/-- C17 (amended): in every state reached from a freshly constructed container
(default, fill, count-only, range, initializer-list, copy or move constructor)
through `push_back`, `emplace_back`, `pop_back`, `insert`, `erase`, `clear` and
`resize`, without `reserve` and `shrink_to_fit`, the capacity is 0 or a power of
two. -/
theorem C17_capacity_power_of_two [Inhabited T] (c : unordered_vector T)
    (h : Reachable false c) : pow2_or_zero (capacity c) := by
  unfold capacity
  induction h with
  | from_default => exact Or.inl rfl
  | from_fill count value => exact (construct_fill_policy count value).1
  | from_count count => exact (construct_count_policy count).1
  | from_range values => exact (construct_range_policy values).1
  | from_list init => exact (construct_list_policy init).1
  | from_copy _ ih => exact ih
  | from_move _ ih => exact ih
  | moved_from _ _ => exact Or.inl rfl
  | after_push_back value _ ih => exact grown_by_policy_pow2 (steady_push_back _ _).1 ih
  | after_emplace_back value _ ih => exact grown_by_policy_pow2 (steady_push_back _ _).1 ih
  | after_pop_back _ ih => exact ih
  | after_insert index value _ ih => exact grown_by_policy_pow2 (steady_insert _ _ _).1 ih
  | after_insert_count index count value _ ih =>
    exact grown_by_policy_pow2 (steady_insert_count _ _ _ _).1 ih
  | after_insert_range index values _ ih =>
    exact grown_by_policy_pow2 (steady_insert_range _ _ _).1 ih
  | after_insert_list index ilist _ ih =>
    exact grown_by_policy_pow2 (steady_insert_list _ _ _).1 ih
  | after_erase index _ ih => exact ih
  | after_erase_range first last _ ih =>
    rw [erase_range_capacity]; exact ih
  | after_clear _ ih => exact ih
  | after_resize count _ ih => exact grown_by_policy_pow2 (steady_resize_value _ _ _).1 ih
  | after_resize_value count value _ ih =>
    exact grown_by_policy_pow2 (steady_resize_value _ _ _).1 ih
  | after_reserve new_cap he _ _ => cases he
  | after_shrink_to_fit he _ _ => cases he

/-- C17 (amended) at the fill constructor with count 5 followed by four
`push_back` calls: capacity 16. -/
theorem C17_capacity_power_of_two_witness :
    Reachable false (push_back_all (construct_fill 5 7 : Outcome Nat Unit).state
      [1, 2, 3, 4]).state ∧
    capacity (push_back_all (construct_fill 5 7 : Outcome Nat Unit).state [1, 2, 3, 4]).state
      = 16 ∧
    pow2_or_zero (capacity (push_back_all (construct_fill 5 7 : Outcome Nat Unit).state
      [1, 2, 3, 4]).state) :=
  ⟨Reachable.after_push_back 4 (Reachable.after_push_back 3 (Reachable.after_push_back 2
      (Reachable.after_push_back 1 (Reachable.from_fill 5 7)))),
   by decide,
   C17_capacity_power_of_two _
     (Reachable.after_push_back 4 (Reachable.after_push_back 3 (Reachable.after_push_back 2
       (Reachable.after_push_back 1 (Reachable.from_fill 5 7)))))⟩

/-- C19: on a well-formed container of size N, after `pop_back` and after
`erase(begin() + i)` the slot N-1 holds the default value; after
`erase(first, last)`, after `resize` to a smaller count and after `clear` every
slot from the new size up to N-1 holds the default value. The slots below the
new size keep elements of the container: unchanged for `pop_back` and `resize`,
the former last element in slot i for `erase`, and for the range erase the
original live elements without the erased ones. -/
theorem C19_vacated_slots_default [Inhabited T] (c : unordered_vector T)
    (hwf : well_formed c) :
    (0 < size c →
      subscript (pop_back c) (size c - 1) = some default ∧
      ∀ j, j < size c - 1 → subscript (pop_back c) j = subscript c j) ∧
    (∀ i, i < size c →
      subscript (erase c i).1 (size c - 1) = some default ∧
      (i < size c - 1 → subscript (erase c i).1 i = subscript c (size c - 1)) ∧
      ∀ j, j < size c - 1 → j ≠ i → subscript (erase c i).1 j = subscript c j) ∧
    (∀ f l, f ≤ l → l ≤ size c →
      size (erase_range c f l).state = size c - (l - f) ∧
      (∀ j, size c - (l - f) ≤ j → j < size c →
        subscript (erase_range c f l).state j = some default) ∧
      (∀ j, j < f → subscript (erase_range c f l).state j = subscript c j) ∧
      List.Perm (live (erase_range c f l).state ++ ((live c).drop f).take (l - f)) (live c)) ∧
    (∀ count, count ≤ size c →
      size (resize c count).state = count ∧
      (∀ j, count ≤ j → j < size c → subscript (resize c count).state j = some default) ∧
      ∀ j, j < count → subscript (resize c count).state j = subscript c j) ∧
    (size (clear c) = 0 ∧ ∀ j, j < size c → subscript (clear c) j = some default) := by
  simp only [size]
  refine ⟨?_, ?_, ?_, ?_, ?_⟩
  · intro hpos
    obtain ⟨_, _, _, h4, h5⟩ := pop_back_spec c hwf hpos
    exact ⟨h4, fun j hj => h5 j (by omega)⟩
  · intro i hi
    obtain ⟨_, _, _, h4, h5, h6⟩ := erase_spec c i hwf hi
    exact ⟨h6, h4, fun j hj hji => h5 j hji (by omega)⟩
  · intro f l hfl hl
    obtain ⟨_, _, h3, _, h5, h6⟩ :=
      erase_range_loop_spec f (l - f) c ((l : Int) - 1) 0 (by omega) hwf (by omega)
    obtain ⟨g1, _⟩ :=
      erase_range_loop_vacated f (l - f) c ((l : Int) - 1) 0 (by omega) hwf (by omega)
    exact ⟨h3, g1, h5, h6⟩
  · intro count hle
    obtain ⟨_, _, h3, _, h5, _, h7⟩ :=
      resize_value_spec c count (default : T) hwf (Or.inl hle)
    exact ⟨h3, h7, fun j hj => h5 j (by omega) hj⟩
  · obtain ⟨_, h2, _, h4, _⟩ := clear_spec c hwf
    exact ⟨h2, h4⟩

/-- C19 on 1,2,3,4,5 at capacity 8: the buffers after `pop_back`, `erase` of
position 1, range erase of [1, 4), `resize(2)` and `clear`. -/
theorem C19_vacated_slots_default_witness :
    well_formed (⟨some ⟨0, [some 1, some 2, some 3, some 4, some 5, none, none, none]⟩, 5, 8⟩
      : unordered_vector Nat) ∧
    subscript (pop_back (⟨some ⟨0, [some 1, some 2, some 3, some 4, some 5, none, none, none]⟩,
      5, 8⟩ : unordered_vector Nat)) (5 - 1) = some 0 ∧
    (erase (⟨some ⟨0, [some 1, some 2, some 3, some 4, some 5, none, none, none]⟩, 5, 8⟩
      : unordered_vector Nat) 1).1
      = ⟨some ⟨0, [some 1, some 5, some 3, some 4, some 0, none, none, none]⟩, 4, 8⟩ ∧
    (erase_range (⟨some ⟨0, [some 1, some 2, some 3, some 4, some 5, none, none, none]⟩, 5, 8⟩
      : unordered_vector Nat) 1 4).state
      = ⟨some ⟨0, [some 1, some 5, some 0, some 0, some 0, none, none, none]⟩, 2, 8⟩ ∧
    (resize (⟨some ⟨0, [some 1, some 2, some 3, some 4, some 5, none, none, none]⟩, 5, 8⟩
      : unordered_vector Nat) 2).state
      = ⟨some ⟨0, [some 1, some 2, some 0, some 0, some 0, none, none, none]⟩, 2, 8⟩ ∧
    clear (⟨some ⟨0, [some 1, some 2, some 3, some 4, some 5, none, none, none]⟩, 5, 8⟩
      : unordered_vector Nat)
      = ⟨some ⟨0, [some 0, some 0, some 0, some 0, some 0, none, none, none]⟩, 0, 8⟩ :=
  ⟨by decide,
   ((C19_vacated_slots_default
      (⟨some ⟨0, [some 1, some 2, some 3, some 4, some 5, none, none, none]⟩, 5, 8⟩
        : unordered_vector Nat) (by decide)).1 (by decide)).1,
   by decide, by decide, by decide, by decide⟩

/-- C20: no call of `push_back`, `emplace_back`, `insert` (single, count,
range, initializer list), `resize`, or of the fill, count-only, range and
initializer-list constructors throws, on any container and for any arguments:
when the loop of `allocate` ends for a size above the capacity, the power it
passes to `reserve` is above the capacity as well. -/
theorem C20_growth_never_throws [Inhabited T] (c : unordered_vector T) :
    (∀ size power, size > c.m_capacity → allocate_loop 65 1 size = some power →
      power > c.m_capacity) ∧
    (∀ size e, (allocate c size).result ≠ .thrown e) ∧
    (∀ (value : ValueRef T) e, (push_back c value).result ≠ .thrown e) ∧
    (∀ (value : T) e, (emplace_back c value).result ≠ .thrown e) ∧
    (∀ index (value : T) e, (insert c index value).result ≠ .thrown e) ∧
    (∀ index count (value : T) e, (insert_count c index count value).result ≠ .thrown e) ∧
    (∀ index (values : List T) e, (insert_range c index values).result ≠ .thrown e) ∧
    (∀ index (ilist : List T) e, (insert_list c index ilist).result ≠ .thrown e) ∧
    (∀ count e, (resize c count).result ≠ .thrown e) ∧
    (∀ count (value : ValueRef T) e, (resize_value c count value).result ≠ .thrown e) ∧
    (∀ count (value : T) e, (construct_fill count value).result ≠ .thrown e) ∧
    (∀ count e, (construct_count count : Outcome T Unit).result ≠ .thrown e) ∧
    (∀ (values : List T) e, (construct_range values).result ≠ .thrown e) ∧
    (∀ (init : List T) e, (construct_list init).result ≠ .thrown e) := by
  refine ⟨?_, ?_, ?_, ?_, ?_, ?_, ?_, ?_, ?_, ?_, ?_, ?_, ?_, ?_⟩
  · intro size power hsize hloop
    obtain ⟨_, hle, _⟩ := allocate_loop_sound size 65 0 power (by omega) (by simpa using hloop)
    omega
  · intro size e; exact (allocate_policy c size).2.1 e
  · intro value e; exact (steady_push_back c value).2 e
  · intro value e; exact (steady_push_back c (.object value)).2 e
  · intro index value e; exact (steady_insert c index value).2 e
  · intro index count value e; exact (steady_insert_count c index count value).2 e
  · intro index values e; exact (steady_insert_range c index values).2 e
  · intro index ilist e; exact (steady_insert_list c index ilist).2 e
  · intro count e; exact (steady_resize_value c count _).2 e
  · intro count value e; exact (steady_resize_value c count value).2 e
  · intro count value e; exact (construct_fill_policy count value).2 e
  · intro count e; exact (construct_count_policy (T := T) count).2 e
  · intro values e; exact (construct_range_policy values).2 e
  · intro init e; exact (construct_list_policy init).2 e

/-- C21 (failing input): on the full container 1,2,3,4 (size 4, capacity 4,
a buffer of 4 slots) `push_back` increments `m_size` before it calls `allocate`,
so the `std::copy(begin(), end(), new_data)` of `reserve` reads the offsets
0..4 of the old buffer: offset 4 is not below the capacity 4. The same
`allocate` called before any increment reads the offsets 0..3 only. -/
theorem C21_push_back_reads_past_buffer :
    well_formed (⟨some ⟨0, [some 1, some 2, some 3, some 4]⟩, 4, 4⟩ : unordered_vector Nat) ∧
    buffer_length (⟨some ⟨0, [some 1, some 2, some 3, some 4]⟩, 4, 4⟩
      : unordered_vector Nat).m_data = 4 ∧
    push_back_reads (⟨some ⟨0, [some 1, some 2, some 3, some 4]⟩, 4, 4⟩ : unordered_vector Nat)
      = [0, 1, 2, 3, 4] ∧
    ¬ (∀ i, i ∈ push_back_reads (⟨some ⟨0, [some 1, some 2, some 3, some 4]⟩, 4, 4⟩
        : unordered_vector Nat) → i < 4) ∧
    allocate_reads (⟨some ⟨0, [some 1, some 2, some 3, some 4]⟩, 4, 4⟩ : unordered_vector Nat) 5
      = [0, 1, 2, 3] := by
  refine ⟨by decide, by decide, by decide, ?_, by decide⟩
  intro h
  have h4 := h 4 (by decide)
  omega

/-- C22 (failing input): on the container 1,2,3 (capacity 4) `assign(2, 7)`
clears the container and never assigns `m_size`, so its fill loop runs over an
empty range: the call leaves size 0 and no slot equal to 7. The
initializer-list and range variants, which push each value, leave size 2 with
7, 7 at the indices 0 and 1. -/
theorem C22_assign_count_leaves_empty :
    assign_count (⟨some ⟨0, [some 1, some 2, some 3, none]⟩, 3, 4⟩ : unordered_vector Nat) 2 7
      = ⟨⟨some ⟨0, [some 0, some 0, some 0, none]⟩, 0, 4⟩, .value ()⟩ ∧
    size (assign_count (⟨some ⟨0, [some 1, some 2, some 3, none]⟩, 3, 4⟩
      : unordered_vector Nat) 2 7).state = 0 ∧
    assign_list (⟨some ⟨0, [some 1, some 2, some 3, none]⟩, 3, 4⟩ : unordered_vector Nat) [7, 7]
      = ⟨⟨some ⟨0, [some 7, some 7, some 0, none]⟩, 2, 4⟩, .value ()⟩ ∧
    assign_range (⟨some ⟨0, [some 1, some 2, some 3, none]⟩, 3, 4⟩ : unordered_vector Nat) [7, 7]
      = ⟨⟨some ⟨0, [some 7, some 7, some 0, none]⟩, 2, 4⟩, .value ()⟩ := by
  decide

end claims

end xcontainer
